import Mathlib

/-!
# Verification of the `lap_tracker` track-assembly core

Shallow embedding of `src/lap_tracker/lap_tracking.py` (class `LAPTracker`).

The detection table (a pandas `DataFrame` indexed by `(t, label)` with coordinate
columns and a working `new_label` column) is modelled as a `List Row` kept in the
frame's row order; the coordinate columns (`x`, `y` and optionally `z`, chosen by
`ndims`) are bundled into one integer coordinate vector `pos`.  Chained pandas
assignments such as `self.track.loc[t1]['new_label'].iloc[n] = v` are modelled as
in-place writes to the designated row, which is the uniform reading the module
relies on for its whole relabelling logic.

The cost-matrix construction and the Jonker-Volgenant assignment solver live in
`lap_cost_matrix.py` / `lapjv.py`, which are external collaborators of this core;
solver results enter the embedding as a function `f : Nat → Nat` giving, for the
`n`-th "to" entry, the matched "from" index (an index `≥` the number of real
"from" entries denotes the birth/death dummy block).  The Gaussian-process
predictor is likewise external and enters as an opaque function parameter.
-/

set_option autoImplicit false

namespace LapTrack

/-- One detection of the table: time `t`, current (index) label `label`, the
coordinate vector `pos` (`x`,`y`[,`z`] per `ndims`), and the working `new_label`
column used during relinking. -/
structure Row where
  t : Int
  label : Nat
  pos : List Int
  newLabel : Nat
deriving DecidableEq, Repr

/-- Default row used by positional `getD` accesses. -/
def dRow : Row := ⟨0, 0, [], 0⟩

/-- One entry of the frame returned by `predict_positions`: a label with its
predicted (or fallen-back) position and per-coordinate uncertainty. -/
structure PredRow where
  label : Nat
  pos : List Int
  mse : List Int
deriving DecidableEq, Repr

/-- Rows of the table at time `t`, in table order (`self.track.loc[t]`). -/
def rowsAt (T : List Row) (t : Int) : List Row :=
  T.filter (fun r => decide (r.t = t))

/-- Number of detections at time `t0` (`pos0.shape[0]`). -/
def n0of (T : List Row) (t0 : Int) : Nat := (rowsAt T t0).length

/-- Number of detections at time `t1` (`pos1.shape[0]`). -/
def n1of (T : List Row) (t1 : Int) : Nat := (rowsAt T t1).length

/-- Maximum of the working label column, `self.track['new_label'].max()`
(with 0 for the empty table, which the tracker never queries). -/
def maxNewLabel (T : List Row) : Nat :=
  T.foldr (fun r m => max r.newLabel m) 0

/-- Maximum of a list of labels (`np.ndarray.max`, 0 on the empty array). -/
def listMaxN (l : List Nat) : Nat := l.foldr max 0

/-- Unique values in order of first appearance (`pandas.Index.unique`),
via an accumulator of already-seen values. -/
def dedupAux {α : Type} [DecidableEq α] (seen : List α) : List α → List α
  | [] => []
  | x :: xs => if x ∈ seen then dedupAux seen xs else x :: dedupAux (x :: seen) xs

/-- Unique values of a list in order of first appearance. -/
def dedupKeep {α : Type} [DecidableEq α] (l : List α) : List α := dedupAux [] l

/-- Unique time points, `self.times` (level-0 index values, first-appearance
order; table order is by time, so this is ascending for a sorted table). -/
def timesOf (T : List Row) : List Int := dedupKeep (T.map (fun r => r.t))

/-- Unique labels, `self.labels` (level-1 index values in appearance order). -/
def labelsOf (T : List Row) : List Nat := dedupKeep (T.map (fun r => r.label))

/-- Consecutive pairs `zip(time_points[:-1], time_points[1:])`. -/
def consecPairs (l : List Int) : List (Int × Int) := l.zip l.tail

/-- Insert into a strictly sorted list, skipping duplicates; building block of
`np.unique` (sorted unique values). -/
def insertU (x : Nat) : List Nat → List Nat
  | [] => [x]
  | y :: ys =>
    if x < y then x :: y :: ys
    else if x = y then y :: ys
    else y :: insertU x ys

/-- Sorted unique values of a list of labels (`np.unique`). -/
def uniqueSorted (l : List Nat) : List Nat := l.foldr insertU []

/-- Index of the first occurrence of `a` (position of a label in the sorted
unique label array). -/
def idxOfN : List Nat → Nat → Nat
  | [], _ => 0
  | x :: xs, a => if x = a then 0 else idxOfN xs a + 1

/-- Write `v` into the `new_label` column of the `n`-th row carrying time `t`
(the write-through semantics of `self.track.loc[t]['new_label'].iloc[n] = v`).
If there is no such row the table is unchanged. -/
def setNthAt : List Row → Int → Nat → Nat → List Row
  | [], _, _, _ => []
  | r :: rs, t, n, v =>
    if r.t = t then
      match n with
      | 0 => { r with newLabel := v } :: rs
      | m + 1 => r :: setNthAt rs t m v
    else r :: setNthAt rs t n v

/-- Positional variant of `setNthAt` acting on an already-filtered frame. -/
def setNL : List Row → Nat → Nat → List Row
  | [], _, _ => []
  | r :: rs, 0, v => { r with newLabel := v } :: rs
  | r :: rs, n + 1, v => r :: setNL rs n v

/-- One iteration of the linking loop of `position_track` (lines 187-193):
row `n` of frame `t1` receives either a fresh label `max + 1` when its partner
index `f n` falls in the dummy block (`idx_in >= pos0.shape[0]`, a birth), or
the current working label of the matched `t0` row. -/
def ptStep (t0 t1 : Int) (n0 : Nat) (f : Nat → Nat) (acc : List Row) (n : Nat) :
    List Row :=
  setNthAt acc t1 n
    (if n0 ≤ f n then maxNewLabel acc + 1
     else ((rowsAt acc t0).getD (f n) dRow).newLabel)

/-- The first `k` iterations of the linking loop of `position_track`. -/
def ptFold (t0 t1 : Int) (n0 : Nat) (f : Nat → Nat) (T : List Row) (k : Nat) :
    List Row :=
  (List.range k).foldl (ptStep t0 t1 n0 f) T

/-- `LAPTracker.position_track(t0, t1)` (lines 165-193).  `ok` tells whether
`lapjv` produced a matching; on `AssertionError` (lines 180-186) the fallback
loop walks every `t1` row and assigns it `self.track['new_label'].max() + 1`,
which is `ptStep` with every index in the dummy block, then returns with the
rest of the table untouched (a `RuntimeWarning` is emitted, a side effect with
no bearing on the table).  `f` is the solver output `out_links`. -/
def position_track (t0 t1 : Int) (ok : Bool) (f : Nat → Nat) (T : List Row) :
    List Row :=
  if ok then ptFold t0 t1 (n0of T t0) f T (n1of T t1)
  else ptFold t0 t1 (n0of T t0) (fun _ => n0of T t0) T (n1of T t1)

/-- `LAPTracker.get_track` (lines 78-102): seed the working column from the
level-1 index labels, run `position_track` on every consecutive pair of time
points, then promote `new_label` to the `label` level of the index.
`sol t0 t1` packages the solver outcome for the pair `(t0, t1)`: the cost
matrix depends only on the (immutable) positions, so it is a function of the
pair alone. -/
def get_track (sol : Int → Int → Bool × (Nat → Nat)) (T : List Row) : List Row :=
  let T1 := T.map (fun r => { r with newLabel := r.label })
  let T2 := (consecPairs (timesOf T)).foldl
    (fun acc p => position_track p.1 p.2 (sol p.1 p.2).1 (sol p.1 p.2).2 acc) T1
  T2.map (fun r => { r with label := r.newLabel })

/-- `LAPTracker.reverse_track` (lines 109-119): remap each detection's time to
`rev_times.iloc[-1] - time` (the last row's time minus its own), reverse the row
order, and promote the remapped times to the time level of the index. -/
def reverse_track (T : List Row) : List Row :=
  let last := (T.map (fun r => r.t)).getLast?.getD 0
  (T.map (fun r => { r with t := last - r.t })).reverse

/-- One iteration of the stitching loop of `close_merge_split` (lines 148-154):
position `n` of the working array `unique_new` receives either a fresh label
`unique_new.max() + 1` when the partner index is outside the real segment range
(a birth), or the current value at the partner's position `unique_new[idx_in]`. -/
def cmsStep (numSeqs : Nat) (f : Nat → Nat) (acc : List Nat) (n : Nat) : List Nat :=
  acc.set n
    (if numSeqs ≤ f n then listMaxN acc + 1 else acc.getD (f n) 0)

/-- The first `k` iterations of the stitching loop of `close_merge_split`. -/
def cmsFold (numSeqs : Nat) (f : Nat → Nat) (un : List Nat) (k : Nat) : List Nat :=
  (List.range k).foldl (cmsStep numSeqs f) un

/-- Sorted unique labels of the table, `np.unique(old_labels)` (line 145). -/
def uniqueOld (T : List Row) : List Nat := uniqueSorted (T.map (fun r => r.label))

/-- Number of segments, `len(segments)` (one per distinct label). -/
def ns (T : List Row) : Nat := (uniqueOld T).length

/-- Application of the label mapping (lines 155-156): for each pair
`(old, new)` in order, every position whose ORIGINAL label equals `old`
receives `new` (the mask `old_labels == old` is computed on the unchanged
`old_labels` array). -/
def applyPairs (labs : List Nat) (acc : List Nat) (P : List (Nat × Nat)) :
    List Nat :=
  P.foldl
    (fun acc p => (labs.zip acc).map (fun q => if q.1 = p.1 then p.2 else q.2))
    acc

/-- The full `zip(unique_old, unique_new)` relabelling pass. -/
def applyMapping (olds news labs : List Nat) : List Nat :=
  applyPairs labs labs (olds.zip news)

/-- `LAPTracker.close_merge_split` (lines 122-162), its relabelling part: the
segments and their cost matrix are built externally (`get_cmt_mat`, `lapjv`);
given the solver output `f` (`out_links`), the working array `unique_new`
(initially the sorted unique labels) is rewritten position by position, the
mapping is applied to every detection bearing each old label, and the result is
promoted to the label level of the index. -/
def close_merge_split (f : Nat → Nat) (T : List Row) : List Row :=
  let oldLabels := T.map (fun r => r.label)
  let uNew := cmsFold (ns T) f (uniqueOld T) (ns T)
  let newLabels := applyMapping (uniqueOld T) uNew oldLabels
  (T.zip newLabels).map (fun p => { p.1 with label := p.2, newLabel := p.2 })

/-- Body of the per-label loop of `predict_positions` (lines 205-226): the
history of label `lbl` up to `t0` is cut out; a label with an empty history or
whose history does not reach `t0` exactly is skipped, a label with fewer than
3 points falls back to its `t0` row with zero uncertainty, and the rest are
regressed by the external `gp`. -/
def ppStep (gp : List Row → Int → List Int × List Int) (T : List Row) (t0 : Int)
    (acc : List PredRow) (lbl : Nat) : List PredRow :=
  if ((T.filter (fun r => decide (r.label = lbl))).filter
      (fun r => decide (r.t ≤ t0))).length = 0 then acc
  else if ¬ ((T.filter (fun r => decide (r.label = lbl))).filter
      (fun r => decide (r.t ≤ t0))).any (fun r => decide (r.t = t0)) then acc
  else if (((T.filter (fun r => decide (r.label = lbl))).filter
      (fun r => decide (r.t ≤ t0))).map (fun r => r.t)).length < 3 then
    acc.map (fun q =>
      if q.label = lbl then
        PredRow.mk lbl
          ((((T.filter (fun r => decide (r.label = lbl))).filter
              (fun r => decide (r.t ≤ t0))).filter
                (fun r => decide (r.t = t0))).getD 0 dRow).pos
          (((((T.filter (fun r => decide (r.label = lbl))).filter
              (fun r => decide (r.t ≤ t0))).filter
                (fun r => decide (r.t = t0))).getD 0 dRow).pos.map (fun _ => 0))
      else q)
  else
    acc.map (fun q =>
      if q.label = lbl then
        PredRow.mk lbl
          (gp ((T.filter (fun r => decide (r.label = lbl))).filter
            (fun r => decide (r.t ≤ t0))) t0).1
          (gp ((T.filter (fun r => decide (r.label = lbl))).filter
            (fun r => decide (r.t ≤ t0))) t0).2
      else q)

/-- `LAPTracker.predict_positions(t0, t1)` (lines 195-227).  `gp` is the
external Gaussian-process regression (`_predict_coordinate` over the segment's
history, queried at `t0` as on lines 219-222), returning a predicted position
and a per-coordinate mean-squared error.  The source guard on line 203,
`if np.where(self.times == t1) < 3`, compares a tuple of arrays with an
integer, which under the Python 2 mixed-type ordering this module targets is
always false, so the per-label loop is always reached and `t1` plays no
role in the returned frame. -/
def predict_positions (gp : List Row → Int → List Int × List Int)
    (T : List Row) (t0 t1 : Int) : List PredRow :=
  let pos0 := (rowsAt T t0).map
    (fun r => PredRow.mk r.label r.pos (r.pos.map (fun _ => 0)))
  (labelsOf T).foldl (ppStep gp T t0) pos0

/-- `LAPTracker.remove_shorts(min_length)` (lines 229-234): the label list is
taken once from the initial table; each label whose segment in the CURRENT
table is shorter than `min_length` has all its rows dropped. -/
def remove_shorts (k : Nat) (T : List Row) : List Row :=
  (labelsOf T).foldl (fun acc lbl =>
    if (acc.filter (fun r => decide (r.label = lbl))).length < k then
      acc.filter (fun r => decide (¬ r.label = lbl))
    else acc) T

/-- Squared euclidean cost, the `np.square` per-coordinate distance transform
summed over coordinates (the default `dist_function` composed as `get_lapmat`
aggregates it). -/
def distSq (p q : List Int) : Int :=
  ((p.zip q).map (fun a => (a.1 - a.2) * (a.1 - a.2))).sum

/-- Modelled from the spec: the gating contract of `get_lapmat` together with
the matching contract of `lapjv` (`lap_cost_matrix.py` and `lapjv.py` are not
part of this repository snapshot).  Spec: entries beyond the gating threshold
are infeasible, and the solver returns a matching over the feasible edges plus
birth/death dummies; hence any `t1` entry matched to a REAL `t0` entry is
within the threshold under the configured distance transform. -/
def validFrameMatch (T : List Row) (t0 t1 : Int) (thresh : Int)
    (dist : List Int → List Int → Int) (f : Nat → Nat) : Bool :=
  (List.range (n1of T t1)).all (fun n =>
    !(f n < n0of T t0) ||
      decide (dist (((rowsAt T t0).getD (f n) dRow).pos)
                   (((rowsAt T t1).getD n dRow).pos) ≤ thresh))

/-- First time of the segment of label `lbl` (its start). -/
def segStartT (T : List Row) (lbl : Nat) : Int :=
  ((T.filter (fun r => decide (r.label = lbl))).map (fun r => r.t)).headD 0

/-- Last time of the segment of label `lbl` (its end). -/
def segEndT (T : List Row) (lbl : Nat) : Int :=
  (((T.filter (fun r => decide (r.label = lbl))).map (fun r => r.t)).getLast?).getD 0

/-- Position of the first row of the segment of label `lbl`. -/
def segStartPos (T : List Row) (lbl : Nat) : List Int :=
  ((T.filter (fun r => decide (r.label = lbl))).getD 0 dRow).pos

/-- Position of the last row of the segment of label `lbl`. -/
def segEndPos (T : List Row) (lbl : Nat) : List Int :=
  ((T.filter (fun r => decide (r.label = lbl))).getLast?.getD dRow).pos

/-- Modelled from the spec: the gap-closing gating contract of `get_cmt_mat`
together with the matching contract of `lapjv` (both external to this
repository snapshot).  Spec: the cost of closing segment A's end to segment B's
start is gated by a maximum spatial displacement and a maximum temporal gap
`window_gap`, and gap closing bridges a POSITIVE time gap; a segment matched to
a real partner therefore starts after the matched segment ends, within the
window and within the displacement gate. -/
def validCMS (dist : List Int → List Int → Int) (maxDisp windowGap : Int)
    (T : List Row) (f : Nat → Nat) : Bool :=
  let segs := labelsOf T
  (List.range segs.length).all (fun n =>
    !(f n < segs.length) ||
      (let a := segs.getD n 0
       let b := segs.getD (f n) 0
       decide (segEndT T a < segStartT T b) &&
       decide (segStartT T b - segEndT T a ≤ windowGap) &&
       decide (dist (segEndPos T a) (segStartPos T b) ≤ maxDisp)))

/-- The value written by iteration `n` of the linking loop: the fresh label
`max + 1` for a birth, the matched `t0` row's working label otherwise, read on
the table state reached after the first `n` iterations. -/
def ptVal (t0 t1 : Int) (n0 : Nat) (f : Nat → Nat) (T : List Row) (n : Nat) : Nat :=
  if n0 ≤ f n then maxNewLabel (ptFold t0 t1 n0 f T n) + 1
  else ((rowsAt (ptFold t0 t1 n0 f T n) t0).getD (f n) dRow).newLabel

/-- Working label of the `n`-th row of frame `t1` after `position_track`. -/
def t1LabelAfter (t0 t1 : Int) (ok : Bool) (f : Nat → Nat) (T : List Row) (n : Nat) :
    Nat :=
  ((rowsAt (position_track t0 t1 ok f T) t1).getD n dRow).newLabel

/-- The value written by iteration `n` of the stitching loop of
`close_merge_split`: the fresh label `unique_new.max() + 1` for a birth, the
current value at the partner's position otherwise. -/
def cmsVal (numSeqs : Nat) (f : Nat → Nat) (un : List Nat) (n : Nat) : Nat :=
  if numSeqs ≤ f n then listMaxN (cmsFold numSeqs f un n) + 1
  else (cmsFold numSeqs f un n).getD (f n) 0

/-- Final working label at position `n` of `unique_new` after the stitching
loop of `close_merge_split`. -/
def cmsLabelAfter (f : Nat → Nat) (T : List Row) (n : Nat) : Nat :=
  (cmsFold (ns T) f (uniqueOld T) (ns T)).getD n 0

/-! ### Concrete tables and solver outputs used to instantiate the theorems -/

def TW1 : List Row := [⟨0, 0, [0], 0⟩, ⟨1, 0, [5], 0⟩, ⟨1, 1, [9], 1⟩]

def TW2 : List Row := [⟨0, 0, [0], 0⟩, ⟨1, 0, [5], 0⟩, ⟨1, 1, [9], 1⟩]

def TW3 : List Row := [⟨0, 0, [0, 0, 0], 0⟩, ⟨1, 0, [100, 0, 0], 5⟩]

def T4c : List Row := [⟨0, 0, [0], 0⟩, ⟨2, 1, [0], 1⟩]

def f4c : Nat → Nat := fun n => if n = 0 then 1 else 2

def T4w : List Row := [⟨0, 0, [0], 0⟩, ⟨2, 1, [0], 1⟩]

def f4w : Nat → Nat := fun n => if n = 0 then 1 else 2

def TW5 : List Row := [⟨0, 0, [1, 2], 0⟩, ⟨0, 1, [3, 4], 1⟩, ⟨1, 0, [5, 6], 0⟩]

def gp0 : List Row → Int → List Int × List Int := fun _ _ => ([], [])

def Tc6 : List Row := [⟨0, 5, [1], 5⟩, ⟨1, 5, [2], 5⟩, ⟨2, 0, [3], 0⟩]

def T6w : List Row := [⟨0, 5, [1], 5⟩, ⟨1, 5, [2], 5⟩, ⟨2, 0, [3], 0⟩]

def T9c : List Row := [⟨0, 0, [0], 0⟩, ⟨1, 0, [0], 0⟩]

def sol9c : Int → Int → Bool × (Nat → Nat) := fun _ _ => (true, fun _ => 0)

def T9w : List Row := [⟨0, 0, [0], 0⟩, ⟨1, 0, [0], 0⟩]

def sol9w : Int → Int → Bool × (Nat → Nat) := fun _ _ => (true, fun _ => 0)

def T10w : List Row := [⟨0, 3, [1], 3⟩, ⟨1, 7, [1], 7⟩]

def sol10w : Int → Int → Bool × (Nat → Nat) := fun _ _ => (true, fun _ => 0)

/-! ### Generic list lemmas -/

theorem getD_mem {α : Type} (d : α) :
    ∀ (l : List α) (i : Nat), i < l.length → l.getD i d ∈ l
  | x :: _, 0, _ => List.mem_cons_self x _
  | _ :: xs, i + 1, h =>
    List.mem_cons_of_mem _ (getD_mem d xs i (by simpa using h))
  | [], _, h => absurd h (by simp)

theorem getD_map' {α β : Type} (g : α → β) (d : α) (e : β) :
    ∀ (l : List α) (i : Nat), i < l.length → (l.map g).getD i e = g (l.getD i d)
  | _ :: _, 0, _ => rfl
  | _ :: xs, i + 1, h => getD_map' g d e xs i (by simpa using h)
  | [], _, h => absurd h (by simp)

theorem getD_set_self :
    ∀ (l : List Nat) (n v : Nat), n < l.length → (l.set n v).getD n 0 = v
  | _ :: _, 0, _, _ => rfl
  | _ :: xs, n + 1, v, h => getD_set_self xs n v (by simpa using h)
  | [], _, _, h => absurd h (by simp)

theorem getD_set_ne :
    ∀ (l : List Nat) (i n v : Nat), i ≠ n → (l.set n v).getD i 0 = l.getD i 0
  | [], _, _, _, _ => by simp
  | _ :: _, 0, 0, _, hne => absurd rfl hne
  | _ :: _, 0, _ + 1, _, _ => rfl
  | _ :: _, _ + 1, 0, _, _ => rfl
  | _ :: xs, i + 1, n + 1, v, hne =>
    getD_set_ne xs i n v (fun h => hne (by rw [h]))

theorem zipMap_getD_nat (g : Nat × Nat → Nat) :
    ∀ (L A : List Nat) (i : Nat), i < L.length → i < A.length →
      ((L.zip A).map g).getD i 0 = g (L.getD i 0, A.getD i 0)
  | _ :: _, _ :: _, 0, _, _ => rfl
  | _ :: xs, _ :: ys, i + 1, h1, h2 =>
    zipMap_getD_nat g xs ys i (by simpa using h1) (by simpa using h2)
  | [], _, _, h1, _ => absurd h1 (by simp)
  | _ :: _, [], _, _, h2 => absurd h2 (by simp)

theorem zipMap_getD_row (g : Row × Nat → Row) :
    ∀ (L : List Row) (A : List Nat) (i : Nat), i < L.length → i < A.length →
      ((L.zip A).map g).getD i dRow = g (L.getD i dRow, A.getD i 0)
  | _ :: _, _ :: _, 0, _, _ => rfl
  | _ :: xs, _ :: ys, i + 1, h1, h2 =>
    zipMap_getD_row g xs ys i (by simpa using h1) (by simpa using h2)
  | [], _, _, h1, _ => absurd h1 (by simp)
  | _ :: _, [], _, _, h2 => absurd h2 (by simp)

theorem zip_getD_mem :
    ∀ (L A : List Nat) (k : Nat), k < L.length → k < A.length →
      (L.getD k 0, A.getD k 0) ∈ L.zip A
  | _ :: _, _ :: _, 0, _, _ => List.mem_cons_self _ _
  | _ :: xs, _ :: ys, k + 1, h1, h2 =>
    List.mem_cons_of_mem _ (zip_getD_mem xs ys k (by simpa using h1) (by simpa using h2))
  | [], _, _, h1, _ => absurd h1 (by simp)
  | _ :: _, [], _, _, h2 => absurd h2 (by simp)

theorem zip_tail_ne :
    ∀ {l : List Int}, l.Nodup → ∀ p ∈ l.zip l.tail, p.1 ≠ p.2
  | [], _, p, hp => absurd hp (by simp)
  | [_], _, p, hp => absurd hp (by simp)
  | x :: y :: ys, h, p, hp => by
    rcases List.mem_cons.mp hp with h1 | h1
    · subst h1
      intro hxy
      exact (List.nodup_cons.mp h).1 (by rw [show x = y from hxy]; exact List.mem_cons_self y ys)
    · exact zip_tail_ne (List.nodup_cons.mp h).2 p h1

theorem mem_dedupAux {α : Type} [DecidableEq α] (a : α) :
    ∀ (l seen : List α), a ∈ dedupAux seen l ↔ a ∈ l ∧ a ∉ seen
  | [], seen => by simp [dedupAux]
  | x :: xs, seen => by
    by_cases hx : x ∈ seen
    · rw [show dedupAux seen (x :: xs) = dedupAux seen xs by simp [dedupAux, hx],
        mem_dedupAux a xs seen]
      constructor
      · exact fun h => ⟨List.mem_cons_of_mem _ h.1, h.2⟩
      · rintro ⟨h1, h2⟩
        rcases List.mem_cons.mp h1 with h1 | h1
        · exact absurd (h1 ▸ hx) h2
        · exact ⟨h1, h2⟩
    · rw [show dedupAux seen (x :: xs) = x :: dedupAux (x :: seen) xs by
        simp [dedupAux, hx]]
      rw [List.mem_cons, mem_dedupAux a xs (x :: seen)]
      constructor
      · rintro (h1 | ⟨h1, h2⟩)
        · exact ⟨h1 ▸ List.mem_cons_self x xs, h1 ▸ hx⟩
        · exact ⟨List.mem_cons_of_mem _ h1, fun hs => h2 (List.mem_cons_of_mem _ hs)⟩
      · rintro ⟨h1, h2⟩
        rcases List.mem_cons.mp h1 with h1 | h1
        · exact Or.inl h1
        · by_cases hax : a = x
          · exact Or.inl hax
          · exact Or.inr ⟨h1, fun hs => by
              rcases List.mem_cons.mp hs with hs | hs
              exacts [hax hs, h2 hs]⟩

theorem mem_dedupKeep {α : Type} [DecidableEq α] {a : α} {l : List α} :
    a ∈ dedupKeep l ↔ a ∈ l := by
  rw [dedupKeep, mem_dedupAux]; simp

theorem nodup_dedupAux {α : Type} [DecidableEq α] :
    ∀ (l seen : List α), (dedupAux seen l).Nodup
  | [], _ => by simp [dedupAux]
  | x :: xs, seen => by
    by_cases hx : x ∈ seen
    · rw [show dedupAux seen (x :: xs) = dedupAux seen xs by simp [dedupAux, hx]]
      exact nodup_dedupAux xs seen
    · rw [show dedupAux seen (x :: xs) = x :: dedupAux (x :: seen) xs by
        simp [dedupAux, hx]]
      refine List.nodup_cons.mpr ⟨fun hmem => ?_, nodup_dedupAux xs (x :: seen)⟩
      exact ((mem_dedupAux x xs (x :: seen)).mp hmem).2 (List.mem_cons_self x seen)

theorem nodup_dedupKeep {α : Type} [DecidableEq α] (l : List α) :
    (dedupKeep l).Nodup := nodup_dedupAux l []

theorem dedupKeep_cons {α : Type} [DecidableEq α] (x : α) (xs : List α) :
    dedupKeep (x :: xs) = x :: dedupAux [x] xs := by
  simp [dedupKeep, dedupAux]

theorem mem_insertU {a x : Nat} :
    ∀ {l : List Nat}, a ∈ insertU x l ↔ a = x ∨ a ∈ l
  | [] => by simp [insertU]
  | y :: ys => by
    by_cases hlt : x < y
    · simp [insertU, hlt]
    · by_cases heq : x = y
      · subst heq
        rw [show insertU x (x :: ys) = x :: ys by simp [insertU, hlt]]
        constructor
        · exact fun h => Or.inr h
        · rintro (h | h)
          exacts [by rw [h]; exact List.mem_cons_self x ys, h]
      · rw [show insertU x (y :: ys) = y :: insertU x ys by simp [insertU, hlt, heq]]
        rw [List.mem_cons, @mem_insertU a x ys, List.mem_cons]
        tauto

theorem pairwise_insertU {x : Nat} :
    ∀ {l : List Nat}, l.Pairwise (· < ·) → (insertU x l).Pairwise (· < ·)
  | [], _ => by simp [insertU]
  | y :: ys, h => by
    rcases List.pairwise_cons.mp h with ⟨hy, hys⟩
    by_cases hlt : x < y
    · rw [show insertU x (y :: ys) = x :: y :: ys by simp [insertU, hlt]]
      refine List.pairwise_cons.mpr ⟨?_, h⟩
      intro a ha
      rcases List.mem_cons.mp ha with ha | ha
      · exact ha ▸ hlt
      · exact lt_trans hlt (hy a ha)
    · by_cases heq : x = y
      · rw [show insertU x (y :: ys) = y :: ys by simp [insertU, hlt, heq]]
        exact h
      · rw [show insertU x (y :: ys) = y :: insertU x ys by simp [insertU, hlt, heq]]
        refine List.pairwise_cons.mpr ⟨?_, pairwise_insertU hys⟩
        intro a ha
        rcases mem_insertU.mp ha with ha | ha
        · subst ha; omega
        · exact hy a ha

theorem uniqueSorted_cons (x : Nat) (xs : List Nat) :
    uniqueSorted (x :: xs) = insertU x (uniqueSorted xs) := rfl

theorem pairwise_uniqueSorted : ∀ (l : List Nat), (uniqueSorted l).Pairwise (· < ·)
  | [] => by simp [uniqueSorted]
  | x :: xs => by
    rw [uniqueSorted_cons]
    exact pairwise_insertU (pairwise_uniqueSorted xs)

theorem mem_uniqueSorted {a : Nat} : ∀ {l : List Nat}, a ∈ uniqueSorted l ↔ a ∈ l
  | [] => by simp [uniqueSorted]
  | x :: xs => by
    rw [uniqueSorted_cons, mem_insertU, @mem_uniqueSorted a xs, List.mem_cons]

theorem nodup_uniqueSorted (l : List Nat) : (uniqueSorted l).Nodup :=
  (pairwise_uniqueSorted l).imp Nat.ne_of_lt

theorem le_getD_last_of_pairwise :
    ∀ (L : List Nat), L.Pairwise (· < ·) → ∀ a ∈ L, a ≤ L.getD (L.length - 1) 0
  | [], _, a, ha => absurd ha (by simp)
  | [x], _, a, ha => by
    rcases List.mem_cons.mp ha with h | h
    · simp [h]
    · exact absurd h (by simp)
  | x :: y :: ys, h, a, ha => by
    rcases List.pairwise_cons.mp h with ⟨hx, htl⟩
    have hlen : (x :: y :: ys).length - 1 = (y :: ys).length := by simp
    have hstep : (x :: y :: ys).getD ((x :: y :: ys).length - 1) 0
        = (y :: ys).getD ((y :: ys).length - 1) 0 := by
      rw [hlen]; simp [List.getD]
    rw [hstep]
    rcases List.mem_cons.mp ha with hax | hatl
    · have hmem : (y :: ys).getD ((y :: ys).length - 1) 0 ∈ y :: ys :=
        getD_mem 0 (y :: ys) _ (by simp)
      exact hax ▸ le_of_lt (hx _ hmem)
    · exact le_getD_last_of_pairwise (y :: ys) htl a hatl

theorem idxOfN_lt_length {a : Nat} :
    ∀ {l : List Nat}, a ∈ l → idxOfN l a < l.length
  | [], ha => absurd ha (by simp)
  | x :: xs, ha => by
    by_cases hx : x = a
    · simp [idxOfN, hx]
    · have : a ∈ xs := by
        rcases List.mem_cons.mp ha with h | h
        exacts [absurd h.symm hx, h]
      simp only [idxOfN, hx, if_false, List.length_cons]
      exact Nat.succ_lt_succ (idxOfN_lt_length this)

theorem getD_idxOfN {a : Nat} :
    ∀ {l : List Nat}, a ∈ l → l.getD (idxOfN l a) 0 = a
  | [], ha => absurd ha (by simp)
  | x :: xs, ha => by
    by_cases hx : x = a
    · simp [idxOfN, hx]
    · have : a ∈ xs := by
        rcases List.mem_cons.mp ha with h | h
        exacts [absurd h.symm hx, h]
      simp only [idxOfN, hx, if_false]
      exact getD_idxOfN this

theorem le_maxNewLabel : ∀ {T : List Row} {r : Row}, r ∈ T → r.newLabel ≤ maxNewLabel T
  | s :: T, r, h => by
    have : maxNewLabel (s :: T) = max s.newLabel (maxNewLabel T) := rfl
    rw [this]
    rcases List.mem_cons.mp h with h | h
    · exact h ▸ le_max_left _ _
    · exact le_trans (le_maxNewLabel h) (le_max_right _ _)
  | [], r, h => absurd h (by simp)

theorem le_listMaxN : ∀ {l : List Nat} {a : Nat}, a ∈ l → a ≤ listMaxN l
  | x :: l, a, h => by
    have : listMaxN (x :: l) = max x (listMaxN l) := rfl
    rw [this]
    rcases List.mem_cons.mp h with h | h
    · exact h ▸ le_max_left _ _
    · exact le_trans (le_listMaxN h) (le_max_right _ _)
  | [], a, h => absurd h (by simp)

theorem pairsNodup_unique {T : List Row}
    (h : (T.map (fun r => (r.t, r.label))).Nodup) :
    ∀ {p q : Row}, p ∈ T → q ∈ T → p.t = q.t → p.label = q.label → p = q := by
  induction T with
  | nil => intro p q hp _ _ _; exact absurd hp (by simp)
  | cons r rs ih =>
    rw [List.map_cons, List.nodup_cons] at h
    intro p q hp hq ht hl
    rcases List.mem_cons.mp hp with hp | hp <;> rcases List.mem_cons.mp hq with hq | hq
    · exact hp.trans hq.symm
    · exfalso
      apply h.1
      have : (q.t, q.label) ∈ rs.map (fun r => (r.t, r.label)) :=
        List.mem_map_of_mem _ hq
      rw [show (r.t, r.label) = (q.t, q.label) by rw [← hp]; rw [ht, hl]]
      exact this
    · exfalso
      apply h.1
      have : (p.t, p.label) ∈ rs.map (fun r => (r.t, r.label)) :=
        List.mem_map_of_mem _ hp
      rw [show (r.t, r.label) = (p.t, p.label) by rw [← hq]; rw [← ht, ← hl]]
      exact this
    · exact ih h.2 hp hq ht hl

theorem nodup_all_eq_length_le_one {α : Type} {l : List α} {p : α}
    (hnd : l.Nodup) (hall : ∀ x ∈ l, x = p) : l.length ≤ 1 := by
  match l, hnd, hall with
  | [], _, _ => simp
  | [_], _, _ => simp
  | x :: y :: ys, hnd, hall =>
    exfalso
    have hx : x = p := hall x (List.mem_cons_self _ _)
    have hy : y = p := hall y (List.mem_cons_of_mem _ (List.mem_cons_self _ _))
    exact (List.nodup_cons.mp hnd).1 (by rw [hx, hy.symm]; exact List.mem_cons_self y ys)

theorem all_eq_getD_zero {l : List Row} {p : Row}
    (hne : l ≠ []) (hall : ∀ x ∈ l, x = p) : l.getD 0 dRow = p := by
  match l, hne, hall with
  | x :: xs, _, hall => exact hall x (List.mem_cons_self _ _)

/-! ### Lemmas about `setNthAt`, `setNL` and the linking loop -/

theorem mem_of_mem_rowsAt {r : Row} {T : List Row} {t : Int} (h : r ∈ rowsAt T t) :
    r ∈ T := (List.mem_filter.mp h).1

theorem rowsAt_cons_pos {r : Row} {rs : List Row} {t : Int} (h : r.t = t) :
    rowsAt (r :: rs) t = r :: rowsAt rs t := by simp [rowsAt, h]

theorem rowsAt_cons_neg {r : Row} {rs : List Row} {t : Int} (h : ¬ r.t = t) :
    rowsAt (r :: rs) t = rowsAt rs t := by simp [rowsAt, h]

theorem length_setNL : ∀ (L : List Row) (n v : Nat), (setNL L n v).length = L.length
  | [], _, _ => rfl
  | _ :: _, 0, _ => rfl
  | r :: rs, n + 1, v => by simp [setNL, length_setNL rs n v]

theorem getD_setNL_self : ∀ (L : List Row) (n v : Nat), n < L.length →
    (setNL L n v).getD n dRow = { L.getD n dRow with newLabel := v }
  | _ :: _, 0, _, _ => rfl
  | _ :: rs, n + 1, v, h => getD_setNL_self rs n v (by simpa using h)
  | [], _, _, h => absurd h (by simp)

theorem getD_setNL_ne : ∀ (L : List Row) (i n v : Nat), i ≠ n →
    (setNL L n v).getD i dRow = L.getD i dRow
  | [], _, _, _, _ => rfl
  | _ :: _, 0, 0, _, hne => absurd rfl hne
  | _ :: _, 0, _ + 1, _, _ => rfl
  | _ :: _, _ + 1, 0, _, _ => rfl
  | _ :: rs, i + 1, n + 1, v, hne => getD_setNL_ne rs i n v (fun h => hne (by rw [h]))

theorem length_setNthAt : ∀ (T : List Row) (t : Int) (n v : Nat),
    (setNthAt T t n v).length = T.length
  | [], _, _, _ => rfl
  | r :: rs, t, n, v => by
    by_cases hr : r.t = t
    · match n with
      | 0 => simp [setNthAt, hr]
      | m + 1 => simp [setNthAt, hr, length_setNthAt rs t m v]
    · simp [setNthAt, hr, length_setNthAt rs t n v]

theorem t_getD_setNthAt : ∀ (T : List Row) (t : Int) (n v i : Nat),
    ((setNthAt T t n v).getD i dRow).t = (T.getD i dRow).t
  | [], _, _, _, _ => rfl
  | r :: rs, t, n, v, i => by
    by_cases hr : r.t = t
    · match n, i with
      | 0, 0 => simp [setNthAt, hr, List.getD]
      | 0, i + 1 => simp [setNthAt, hr, List.getD]
      | m + 1, 0 => simp [setNthAt, hr, List.getD]
      | m + 1, i + 1 =>
        simp only [setNthAt, hr, if_true, List.getD_cons_succ]
        exact t_getD_setNthAt rs t m v i
    · match i with
      | 0 => simp [setNthAt, hr, List.getD]
      | i + 1 =>
        simp only [setNthAt, hr, if_false, List.getD_cons_succ]
        exact t_getD_setNthAt rs t n v i

theorem label_getD_setNthAt : ∀ (T : List Row) (t : Int) (n v i : Nat),
    ((setNthAt T t n v).getD i dRow).label = (T.getD i dRow).label
  | [], _, _, _, _ => rfl
  | r :: rs, t, n, v, i => by
    by_cases hr : r.t = t
    · match n, i with
      | 0, 0 => simp [setNthAt, hr, List.getD]
      | 0, i + 1 => simp [setNthAt, hr, List.getD]
      | m + 1, 0 => simp [setNthAt, hr, List.getD]
      | m + 1, i + 1 =>
        simp only [setNthAt, hr, if_true, List.getD_cons_succ]
        exact label_getD_setNthAt rs t m v i
    · match i with
      | 0 => simp [setNthAt, hr, List.getD]
      | i + 1 =>
        simp only [setNthAt, hr, if_false, List.getD_cons_succ]
        exact label_getD_setNthAt rs t n v i

theorem getD_setNthAt_ne_t : ∀ (T : List Row) (t : Int) (n v i : Nat),
    (T.getD i dRow).t ≠ t → (setNthAt T t n v).getD i dRow = T.getD i dRow
  | [], _, _, _, _, _ => rfl
  | r :: rs, t, n, v, i, h => by
    by_cases hr : r.t = t
    · match n, i with
      | 0, 0 => exact absurd hr h
      | 0, i + 1 => simp [setNthAt, hr, List.getD]
      | m + 1, 0 => simp [setNthAt, hr, List.getD]
      | m + 1, i + 1 =>
        simp only [setNthAt, hr, if_true, List.getD_cons_succ]
        exact getD_setNthAt_ne_t rs t m v i h
    · match i with
      | 0 => simp [setNthAt, hr, List.getD]
      | i + 1 =>
        simp only [setNthAt, hr, if_false, List.getD_cons_succ]
        exact getD_setNthAt_ne_t rs t n v i h

theorem rowsAt_setNthAt_self : ∀ (T : List Row) (t : Int) (n v : Nat),
    rowsAt (setNthAt T t n v) t = setNL (rowsAt T t) n v
  | [], _, _, _ => rfl
  | r :: rs, t, n, v => by
    by_cases hr : r.t = t
    · match n with
      | 0 =>
        rw [show setNthAt (r :: rs) t 0 v = { r with newLabel := v } :: rs by
          simp [setNthAt, hr]]
        rw [rowsAt_cons_pos (show ({ r with newLabel := v } : Row).t = t from hr),
          rowsAt_cons_pos hr]
        rfl
      | m + 1 =>
        rw [show setNthAt (r :: rs) t (m + 1) v = r :: setNthAt rs t m v by
          simp [setNthAt, hr]]
        rw [rowsAt_cons_pos hr, rowsAt_cons_pos hr, rowsAt_setNthAt_self rs t m v]
        rfl
    · rw [show setNthAt (r :: rs) t n v = r :: setNthAt rs t n v by
        simp [setNthAt, hr]]
      rw [rowsAt_cons_neg hr, rowsAt_cons_neg hr]
      exact rowsAt_setNthAt_self rs t n v

theorem rowsAt_setNthAt_ne : ∀ (T : List Row) (t t2 : Int) (n v : Nat), t2 ≠ t →
    rowsAt (setNthAt T t n v) t2 = rowsAt T t2
  | [], _, _, _, _, _ => rfl
  | r :: rs, t, t2, n, v, hne => by
    by_cases hr : r.t = t
    · have hr2 : ¬ r.t = t2 := fun h => hne (h ▸ hr)
      match n with
      | 0 =>
        rw [show setNthAt (r :: rs) t 0 v = { r with newLabel := v } :: rs by
          simp [setNthAt, hr]]
        rw [rowsAt_cons_neg (show ¬ ({ r with newLabel := v } : Row).t = t2 from hr2),
          rowsAt_cons_neg hr2]
      | m + 1 =>
        rw [show setNthAt (r :: rs) t (m + 1) v = r :: setNthAt rs t m v by
          simp [setNthAt, hr]]
        rw [rowsAt_cons_neg hr2, rowsAt_cons_neg hr2]
        exact rowsAt_setNthAt_ne rs t t2 m v hne
    · rw [show setNthAt (r :: rs) t n v = r :: setNthAt rs t n v by
        simp [setNthAt, hr]]
      by_cases hr2 : r.t = t2
      · rw [rowsAt_cons_pos hr2, rowsAt_cons_pos hr2, rowsAt_setNthAt_ne rs t t2 n v hne]
      · rw [rowsAt_cons_neg hr2, rowsAt_cons_neg hr2]
        exact rowsAt_setNthAt_ne rs t t2 n v hne

section PT

variable (t0 t1 : Int) (n0 : Nat) (f : Nat → Nat) (T : List Row)

theorem ptFold_succ (k : Nat) :
    ptFold t0 t1 n0 f T (k + 1) = ptStep t0 t1 n0 f (ptFold t0 t1 n0 f T k) k := by
  unfold ptFold
  rw [List.range_succ, List.foldl_append, List.foldl_cons, List.foldl_nil]

theorem ptFold_succ_set (k : Nat) :
    ptFold t0 t1 n0 f T (k + 1)
      = setNthAt (ptFold t0 t1 n0 f T k) t1 k (ptVal t0 t1 n0 f T k) := by
  rw [ptFold_succ]; rfl

theorem t_getD_ptFold (k i : Nat) :
    ((ptFold t0 t1 n0 f T k).getD i dRow).t = (T.getD i dRow).t := by
  induction k with
  | zero => rfl
  | succ k ih =>
    rw [ptFold_succ_set, t_getD_setNthAt]
    exact ih

theorem label_getD_ptFold (k i : Nat) :
    ((ptFold t0 t1 n0 f T k).getD i dRow).label = (T.getD i dRow).label := by
  induction k with
  | zero => rfl
  | succ k ih =>
    rw [ptFold_succ_set, label_getD_setNthAt]
    exact ih

theorem getD_ptFold_ne_t1 {i : Nat} (h : (T.getD i dRow).t ≠ t1) (k : Nat) :
    (ptFold t0 t1 n0 f T k).getD i dRow = T.getD i dRow := by
  induction k with
  | zero => rfl
  | succ k ih =>
    rw [ptFold_succ_set, getD_setNthAt_ne_t _ _ _ _ _ (by rw [t_getD_ptFold]; exact h)]
    exact ih

theorem length_ptFold (k : Nat) : (ptFold t0 t1 n0 f T k).length = T.length := by
  induction k with
  | zero => rfl
  | succ k ih => rw [ptFold_succ_set, length_setNthAt]; exact ih

theorem length_rowsAt_ptFold_t1 (k : Nat) :
    (rowsAt (ptFold t0 t1 n0 f T k) t1).length = (rowsAt T t1).length := by
  induction k with
  | zero => rfl
  | succ k ih =>
    rw [ptFold_succ_set, rowsAt_setNthAt_self, length_setNL]
    exact ih

theorem rowsAt_ptFold_ne {t2 : Int} (h : t2 ≠ t1) (k : Nat) :
    rowsAt (ptFold t0 t1 n0 f T k) t2 = rowsAt T t2 := by
  induction k with
  | zero => rfl
  | succ k ih =>
    rw [ptFold_succ_set, rowsAt_setNthAt_ne _ _ _ _ _ h]
    exact ih

theorem rowsAt_ptFold_getD_stable (k j : Nat) (hjk : j < k) :
    (rowsAt (ptFold t0 t1 n0 f T k) t1).getD j dRow
      = (rowsAt (ptFold t0 t1 n0 f T (j + 1)) t1).getD j dRow := by
  induction k with
  | zero => omega
  | succ k ih =>
    rcases Nat.lt_succ_iff_lt_or_eq.mp hjk with h | h
    · rw [ptFold_succ_set, rowsAt_setNthAt_self, getD_setNL_ne _ _ _ _ (Nat.ne_of_lt h)]
      exact ih h
    · rw [h]

theorem rowsAt_ptFold_getD_write {n : Nat} (hn : n < (rowsAt T t1).length) :
    (rowsAt (ptFold t0 t1 n0 f T (n + 1)) t1).getD n dRow
      = { (rowsAt (ptFold t0 t1 n0 f T n) t1).getD n dRow with
          newLabel := ptVal t0 t1 n0 f T n } := by
  rw [ptFold_succ_set, rowsAt_setNthAt_self, getD_setNL_self]
  rw [length_rowsAt_ptFold_t1]
  exact hn

theorem newLabel_ptFold_final {n K : Nat} (hK : n < K) (hn : n < (rowsAt T t1).length) :
    ((rowsAt (ptFold t0 t1 n0 f T K) t1).getD n dRow).newLabel
      = ptVal t0 t1 n0 f T n := by
  rw [rowsAt_ptFold_getD_stable _ _ _ _ _ K n hK, rowsAt_ptFold_getD_write _ _ _ _ _ hn]

theorem ptVal_le_maxNewLabel {n m : Nat} (hnm : n < m) (hn : n < (rowsAt T t1).length) :
    ptVal t0 t1 n0 f T n ≤ maxNewLabel (ptFold t0 t1 n0 f T m) := by
  have h1 : ((rowsAt (ptFold t0 t1 n0 f T m) t1).getD n dRow).newLabel
      = ptVal t0 t1 n0 f T n := newLabel_ptFold_final _ _ _ _ _ hnm hn
  have h2 : (rowsAt (ptFold t0 t1 n0 f T m) t1).getD n dRow
      ∈ rowsAt (ptFold t0 t1 n0 f T m) t1 :=
    getD_mem dRow _ n (by rw [length_rowsAt_ptFold_t1]; exact hn)
  rw [← h1]
  exact le_maxNewLabel (mem_of_mem_rowsAt h2)

theorem ptVal_birth {n : Nat} (hb : n0 ≤ f n) :
    ptVal t0 t1 n0 f T n = maxNewLabel (ptFold t0 t1 n0 f T n) + 1 := by
  simp [ptVal, hb]

theorem ptVal_birth_fresh {n : Nat} (hb : n0 ≤ f n) :
    ∀ r ∈ ptFold t0 t1 n0 f T n, r.newLabel < ptVal t0 t1 n0 f T n := by
  intro r hr
  rw [ptVal_birth _ _ _ _ _ hb]
  exact Nat.lt_succ_of_le (le_maxNewLabel hr)

theorem ptVal_birth_lt {n m : Nat} (hnm : n < m) (hm : m < (rowsAt T t1).length)
    (hbm : n0 ≤ f m) : ptVal t0 t1 n0 f T n < ptVal t0 t1 n0 f T m := by
  have h1 := ptVal_le_maxNewLabel t0 t1 n0 f T hnm (lt_trans hnm hm)
  rw [ptVal_birth _ _ _ _ _ hbm]
  omega

theorem t1LabelAfter_true {n : Nat} (hn : n < n1of T t1) :
    t1LabelAfter t0 t1 true f T n = ptVal t0 t1 (n0of T t0) f T n := by
  unfold t1LabelAfter position_track
  simp only [if_true]
  exact newLabel_ptFold_final _ _ _ _ _ hn hn

theorem t1LabelAfter_false {n : Nat} (hn : n < n1of T t1) :
    t1LabelAfter t0 t1 false f T n
      = ptVal t0 t1 (n0of T t0) (fun _ => n0of T t0) T n := by
  unfold t1LabelAfter position_track
  simp only [Bool.false_eq_true, if_false]
  exact newLabel_ptFold_final _ _ _ _ _ hn hn

end PT

/-! ### Lemmas about the stitching loop of `close_merge_split` -/

section CMS

variable (nsq : Nat) (f : Nat → Nat) (un : List Nat)

theorem cmsFold_succ (k : Nat) :
    cmsFold nsq f un (k + 1) = cmsStep nsq f (cmsFold nsq f un k) k := by
  unfold cmsFold
  rw [List.range_succ, List.foldl_append, List.foldl_cons, List.foldl_nil]

theorem cmsFold_succ_set (k : Nat) :
    cmsFold nsq f un (k + 1) = (cmsFold nsq f un k).set k (cmsVal nsq f un k) := by
  rw [cmsFold_succ]; rfl

theorem length_cmsFold (k : Nat) : (cmsFold nsq f un k).length = un.length := by
  induction k with
  | zero => rfl
  | succ k ih => rw [cmsFold_succ_set, List.length_set]; exact ih

theorem getD_cmsFold_ge (k j : Nat) (h : k ≤ j) :
    (cmsFold nsq f un k).getD j 0 = un.getD j 0 := by
  induction k with
  | zero => rfl
  | succ k ih =>
    rw [cmsFold_succ_set, getD_set_ne _ _ _ _ (by omega)]
    exact ih (by omega)

theorem getD_cmsFold_stable (k j : Nat) (h : j < k) :
    (cmsFold nsq f un k).getD j 0 = (cmsFold nsq f un (j + 1)).getD j 0 := by
  induction k with
  | zero => omega
  | succ k ih =>
    rcases Nat.lt_succ_iff_lt_or_eq.mp h with h | h
    · rw [cmsFold_succ_set, getD_set_ne _ _ _ _ (Nat.ne_of_lt h)]
      exact ih h
    · rw [h]

theorem getD_cmsFold_write (n : Nat) (hn : n < un.length) :
    (cmsFold nsq f un (n + 1)).getD n 0 = cmsVal nsq f un n := by
  rw [cmsFold_succ_set, getD_set_self]
  rw [length_cmsFold]
  exact hn

theorem getD_cmsFold_final {n K : Nat} (hK : n < K) (hn : n < un.length) :
    (cmsFold nsq f un K).getD n 0 = cmsVal nsq f un n := by
  rw [getD_cmsFold_stable _ _ _ K n hK, getD_cmsFold_write _ _ _ n hn]

theorem cmsVal_le_listMaxN {n m : Nat} (hnm : n < m) (hn : n < un.length) :
    cmsVal nsq f un n ≤ listMaxN (cmsFold nsq f un m) := by
  have h1 : (cmsFold nsq f un m).getD n 0 = cmsVal nsq f un n :=
    getD_cmsFold_final _ _ _ hnm hn
  have h2 : (cmsFold nsq f un m).getD n 0 ∈ cmsFold nsq f un m :=
    getD_mem 0 _ n (by rw [length_cmsFold]; exact hn)
  rw [← h1]
  exact le_listMaxN h2

theorem cmsVal_birth {n : Nat} (hb : nsq ≤ f n) :
    cmsVal nsq f un n = listMaxN (cmsFold nsq f un n) + 1 := by
  simp [cmsVal, hb]

theorem cmsVal_birth_fresh {n : Nat} (hb : nsq ≤ f n) :
    ∀ x ∈ cmsFold nsq f un n, x < cmsVal nsq f un n := by
  intro x hx
  rw [cmsVal_birth _ _ _ hb]
  exact Nat.lt_succ_of_le (le_listMaxN hx)

theorem cmsVal_birth_lt {n m : Nat} (hnm : n < m) (hm : m < un.length)
    (hb : nsq ≤ f m) : cmsVal nsq f un n < cmsVal nsq f un m := by
  have h1 := cmsVal_le_listMaxN nsq f un hnm (lt_trans hnm hm)
  rw [cmsVal_birth _ _ _ hb]
  omega

end CMS

theorem cmsLabelAfter_eq {f : Nat → Nat} {T : List Row} {n : Nat} (hn : n < ns T) :
    cmsLabelAfter f T n = cmsVal (ns T) f (uniqueOld T) n := by
  unfold cmsLabelAfter
  exact getD_cmsFold_final _ _ _ hn hn

theorem cmsVal_birth_gt_labels {T : List Row} {f : Nat → Nat} {n : Nat}
    (hn : n < ns T) (hb : ns T ≤ f n) :
    ∀ r ∈ T, r.label < cmsVal (ns T) f (uniqueOld T) n := by
  intro r hr
  have hmem : r.label ∈ uniqueOld T :=
    mem_uniqueSorted.mpr (List.mem_map_of_mem _ hr)
  have hlast : r.label ≤ (uniqueOld T).getD (ns T - 1) 0 :=
    le_getD_last_of_pairwise _ (pairwise_uniqueSorted _) _ hmem
  have huntouched : (cmsFold (ns T) f (uniqueOld T) n).getD (ns T - 1) 0
      = (uniqueOld T).getD (ns T - 1) 0 :=
    getD_cmsFold_ge _ _ _ n (ns T - 1) (by omega)
  have hm : (cmsFold (ns T) f (uniqueOld T) n).getD (ns T - 1) 0
      ∈ cmsFold (ns T) f (uniqueOld T) n :=
    getD_mem 0 _ _ (by rw [length_cmsFold]; show ns T - 1 < ns T; omega)
  have hle : r.label ≤ listMaxN (cmsFold (ns T) f (uniqueOld T) n) := by
    rw [← huntouched] at hlast
    exact le_trans hlast (le_listMaxN hm)
  rw [cmsVal_birth _ _ _ hb]
  omega

/-! ### Lemmas about the relabelling pass of `close_merge_split` -/

theorem applyPairs_cons (labs acc : List Nat) (p : Nat × Nat) (P : List (Nat × Nat)) :
    applyPairs labs acc (p :: P)
      = applyPairs labs
          ((labs.zip acc).map (fun q => if q.1 = p.1 then p.2 else q.2)) P := rfl

theorem length_applyPairs :
    ∀ (P : List (Nat × Nat)) (labs acc : List Nat), acc.length = labs.length →
      (applyPairs labs acc P).length = labs.length
  | [], _, _, h => h
  | p :: P, labs, acc, h => by
    rw [applyPairs_cons]
    refine length_applyPairs P labs _ ?_
    rw [List.length_map, List.length_zip, h, min_self]

theorem applyPairs_getD_nomatch :
    ∀ (P : List (Nat × Nat)) (labs acc : List Nat) (i : Nat),
      acc.length = labs.length → i < labs.length →
      labs.getD i 0 ∉ P.map Prod.fst →
      (applyPairs labs acc P).getD i 0 = acc.getD i 0
  | [], _, _, _, _, _, _ => rfl
  | p :: P, labs, acc, i, hlen, hi, hnm => by
    rw [applyPairs_cons]
    have hne : labs.getD i 0 ≠ p.1 := by
      intro h
      exact hnm (by rw [List.map_cons, h]; exact List.mem_cons_self _ _)
    have hlen2 : ((labs.zip acc).map
        (fun q => if q.1 = p.1 then p.2 else q.2)).length = labs.length := by
      rw [List.length_map, List.length_zip, hlen, min_self]
    rw [applyPairs_getD_nomatch P labs _ i hlen2 hi
      (fun hm => hnm (List.mem_cons_of_mem _ hm))]
    rw [zipMap_getD_nat _ labs acc i hi (by rw [hlen]; exact hi)]
    rw [if_neg hne]

theorem applyPairs_getD_match :
    ∀ (P : List (Nat × Nat)) (labs acc : List Nat) (i : Nat) (p : Nat × Nat),
      (P.map Prod.fst).Nodup → p ∈ P → p.1 = labs.getD i 0 →
      acc.length = labs.length → i < labs.length →
      (applyPairs labs acc P).getD i 0 = p.2
  | [], _, _, _, p, _, hp, _, _, _ => absurd hp (by simp)
  | q :: P, labs, acc, i, p, hnd, hp, hfst, hlen, hi => by
    rw [applyPairs_cons]
    have hlen2 : ((labs.zip acc).map
        (fun w => if w.1 = q.1 then q.2 else w.2)).length = labs.length := by
      rw [List.length_map, List.length_zip, hlen, min_self]
    rcases List.mem_cons.mp hp with hpq | hp2
    · subst hpq
      have hnm : labs.getD i 0 ∉ P.map Prod.fst := by
        rw [← hfst]
        rw [List.map_cons, List.nodup_cons] at hnd
        exact hnd.1
      rw [applyPairs_getD_nomatch P labs _ i hlen2 hi hnm]
      rw [zipMap_getD_nat _ labs acc i hi (by rw [hlen]; exact hi)]
      rw [if_pos hfst.symm]
    · have hnd2 : (P.map Prod.fst).Nodup := by
        rw [List.map_cons, List.nodup_cons] at hnd
        exact hnd.2
      exact applyPairs_getD_match P labs _ i p hnd2 hp2 hfst hlen2 hi

theorem length_applyMapping (olds news labs : List Nat) :
    (applyMapping olds news labs).length = labs.length :=
  length_applyPairs _ labs labs rfl

theorem applyMapping_getD {olds news labs : List Nat} {i : Nat}
    (hnd : olds.Nodup) (hlen : news.length = olds.length) (hi : i < labs.length)
    (hmem : labs.getD i 0 ∈ olds) :
    (applyMapping olds news labs).getD i 0
      = news.getD (idxOfN olds (labs.getD i 0)) 0 := by
  unfold applyMapping
  have hk : idxOfN olds (labs.getD i 0) < olds.length := idxOfN_lt_length hmem
  have hpair : (olds.getD (idxOfN olds (labs.getD i 0)) 0,
      news.getD (idxOfN olds (labs.getD i 0)) 0) ∈ olds.zip news :=
    zip_getD_mem olds news _ hk (by rw [hlen]; exact hk)
  have hfst : (olds.getD (idxOfN olds (labs.getD i 0)) 0,
      news.getD (idxOfN olds (labs.getD i 0)) 0).1 = labs.getD i 0 :=
    getD_idxOfN hmem
  have hndfst : ((olds.zip news).map Prod.fst).Nodup := by
    rw [List.map_fst_zip olds news (by rw [hlen])]
    exact hnd
  exact applyPairs_getD_match _ labs labs i _ hndfst hpair hfst rfl hi

theorem close_merge_split_getD {f : Nat → Nat} {T : List Row} {i : Nat}
    (hi : i < T.length) :
    (close_merge_split f T).getD i dRow
      = { T.getD i dRow with
          label := (applyMapping (uniqueOld T)
            (cmsFold (ns T) f (uniqueOld T) (ns T)) (T.map (fun r => r.label))).getD i 0,
          newLabel := (applyMapping (uniqueOld T)
            (cmsFold (ns T) f (uniqueOld T) (ns T)) (T.map (fun r => r.label))).getD i 0 } := by
  unfold close_merge_split
  rw [zipMap_getD_row _ T _ i hi
    (by rw [length_applyMapping, List.length_map]; exact hi)]

theorem label_mem_uniqueOld {T : List Row} {i : Nat} (hi : i < T.length) :
    (T.getD i dRow).label ∈ uniqueOld T :=
  mem_uniqueSorted.mpr (List.mem_map_of_mem _ (getD_mem dRow T i hi))

theorem close_merge_split_label {f : Nat → Nat} {T : List Row} {i : Nat}
    (hi : i < T.length) :
    ((close_merge_split f T).getD i dRow).label
      = cmsLabelAfter f T (idxOfN (uniqueOld T) ((T.getD i dRow).label)) := by
  rw [close_merge_split_getD hi]
  have hnd : (uniqueOld T).Nodup := nodup_uniqueSorted _
  have hlen : (cmsFold (ns T) f (uniqueOld T) (ns T)).length = (uniqueOld T).length :=
    length_cmsFold _ _ _ _
  have hi2 : i < (T.map (fun r => r.label)).length := by
    rw [List.length_map]; exact hi
  have hmem : (T.map (fun r => r.label)).getD i 0 ∈ uniqueOld T := by
    rw [getD_map' (fun r => r.label) dRow 0 T i hi]
    exact label_mem_uniqueOld hi
  show (applyMapping _ _ _).getD i 0 = _
  rw [applyMapping_getD hnd hlen hi2 hmem,
    getD_map' (fun r => r.label) dRow 0 T i hi]
  rfl

/-! ### Lemmas about `reverse_track` and `remove_shorts` -/

theorem reverse_track_eq (X : List Row) :
    reverse_track X
      = (X.map (fun r =>
          { r with t := ((X.map (fun q => q.t)).getLast?).getD 0 - r.t })).reverse := rfl

theorem reverse_track_twice (T : List Row) :
    reverse_track (reverse_track T)
      = T.map (fun r => { r with t := r.t - (T.map (fun q => q.t)).headD 0 }) := by
  cases T with
  | nil => rfl
  | cons hd tl =>
    have hM2 : (((reverse_track (hd :: tl)).map (fun q => q.t)).getLast?).getD 0
        = (((hd :: tl).map (fun q => q.t)).getLast?).getD 0 - hd.t := by
      rw [reverse_track_eq, List.map_reverse, List.getLast?_reverse, List.map_map]
      rfl
    rw [reverse_track_eq (reverse_track (hd :: tl)), hM2,
      reverse_track_eq (hd :: tl), List.map_reverse, List.reverse_reverse,
      List.map_map]
    refine List.map_congr_left ?_
    intro r _
    show Row.mk
        (((((hd :: tl).map (fun q => q.t)).getLast?).getD 0 - hd.t)
          - ((((hd :: tl).map (fun q => q.t)).getLast?).getD 0 - r.t))
        r.label r.pos r.newLabel
      = Row.mk (r.t - hd.t) r.label r.pos r.newLabel
    congr 1
    omega

theorem rs_fold (k : Nat) (T : List Row) :
    ∀ (L : List Nat) (p : Nat → Bool), L.Nodup →
      L.foldl (fun acc lbl =>
          if (acc.filter (fun r => decide (r.label = lbl))).length < k then
            acc.filter (fun r => decide (¬ r.label = lbl))
          else acc)
        (T.filter (fun r => p r.label))
      = T.filter (fun r => p r.label &&
          (!(decide (r.label ∈ L))
            || decide (k ≤ (T.filter (fun q => decide (q.label = r.label))).length)))
  | [], p, _ => by
    rw [List.foldl_nil]
    refine (List.filter_congr ?_).symm
    intro r _
    simp
  | lbl :: L, p, hnd => by
    rw [List.foldl_cons]
    have hnd2 : L.Nodup := (List.nodup_cons.mp hnd).2
    have hstep :
        (if ((T.filter (fun r => p r.label)).filter
              (fun r => decide (r.label = lbl))).length < k then
          (T.filter (fun r => p r.label)).filter (fun r => decide (¬ r.label = lbl))
        else T.filter (fun r => p r.label))
        = T.filter (fun r => p r.label &&
            (!(decide (r.label = lbl))
              || decide (k ≤ (T.filter (fun q => decide (q.label = r.label))).length))) := by
      rw [List.filter_filter, List.filter_filter]
      by_cases hp : p lbl = true
      · have hceq : T.filter (fun r => decide (r.label = lbl) && p r.label)
            = T.filter (fun r => decide (r.label = lbl)) := by
          refine List.filter_congr ?_
          intro r _
          by_cases h1 : r.label = lbl <;> simp [h1, hp]
        rw [hceq]
        by_cases hk : (T.filter (fun r => decide (r.label = lbl))).length < k
        · rw [if_pos hk]
          refine List.filter_congr ?_
          intro r _
          by_cases h1 : r.label = lbl
          · have hcnt : ¬ k ≤ (T.filter (fun q => decide (q.label = lbl))).length := by
              omega
            simp [h1, hcnt]
          · simp [h1]
        · rw [if_neg hk]
          refine List.filter_congr ?_
          intro r _
          by_cases h1 : r.label = lbl
          · have hcnt : k ≤ (T.filter (fun q => decide (q.label = lbl))).length := by
              omega
            simp [h1, hcnt, hp]
          · simp [h1]
      · have hceq : T.filter (fun r => decide (r.label = lbl) && p r.label) = [] := by
          rw [List.filter_eq_nil_iff]
          intro r _
          by_cases h1 : r.label = lbl <;> simp [h1, hp]
        by_cases hk : (T.filter (fun r => decide (r.label = lbl) && p r.label)).length < k
        · rw [if_pos hk]
          refine List.filter_congr ?_
          intro r _
          by_cases h1 : r.label = lbl
          · simp [h1, hp]
          · simp [h1]
        · rw [if_neg hk]
          refine List.filter_congr ?_
          intro r _
          by_cases h1 : r.label = lbl
          · simp [h1, hp]
          · simp [h1]
    rw [hstep]
    rw [show T.filter (fun r => p r.label &&
          (!(decide (r.label = lbl))
            || decide (k ≤ (T.filter (fun q => decide (q.label = r.label))).length)))
        = T.filter (fun r => (fun l => p l &&
          (!(decide (l = lbl))
            || decide (k ≤ (T.filter (fun q => decide (q.label = l))).length))) r.label)
      from rfl]
    rw [rs_fold k T L (fun l => p l &&
          (!(decide (l = lbl))
            || decide (k ≤ (T.filter (fun q => decide (q.label = l))).length))) hnd2]
    refine List.filter_congr ?_
    intro r _
    by_cases h1 : r.label = lbl
    · by_cases h2 : lbl ∈ L <;>
        by_cases h3 : k ≤ (T.filter (fun q => decide (q.label = lbl))).length <;>
          simp [h1, h2, h3, List.mem_cons]
    · by_cases h2 : r.label ∈ L <;>
        by_cases h3 : k ≤ (T.filter (fun q => decide (q.label = r.label))).length <;>
          simp [h1, h2, h3, List.mem_cons]

theorem remove_shorts_eq_filter (k : Nat) (T : List Row) :
    remove_shorts k T
      = T.filter (fun r =>
          decide (k ≤ (T.filter (fun q => decide (q.label = r.label))).length)) := by
  have h := rs_fold k T (labelsOf T) (fun _ => true) (nodup_dedupKeep _)
  rw [show T.filter (fun r => (fun _ : Nat => true) r.label) = T from
    List.filter_true T] at h
  unfold remove_shorts
  rw [h]
  refine List.filter_congr ?_
  intro r hr
  have hm : r.label ∈ labelsOf T := mem_dedupKeep.mpr (List.mem_map_of_mem _ hr)
  simp [hm]

/-! ### Lemmas about `predict_positions` -/

theorem map_label_mk_id (acc : List PredRow) (lbl : Nat) (a b : List Int) :
    (acc.map (fun q => if q.label = lbl then PredRow.mk lbl a b else q)).map
        (fun e => e.label)
      = acc.map (fun e => e.label) := by
  rw [List.map_map]
  refine List.map_congr_left ?_
  intro q _
  by_cases hq : q.label = lbl <;> simp [hq]

theorem ppStep_map_label (gp : List Row → Int → List Int × List Int) (T : List Row)
    (t0 : Int) (acc : List PredRow) (lbl : Nat) :
    (ppStep gp T t0 acc lbl).map (fun e => e.label) = acc.map (fun e => e.label) := by
  unfold ppStep
  split
  · rfl
  · split
    · rfl
    · split
      · exact map_label_mk_id acc lbl _ _
      · exact map_label_mk_id acc lbl _ _

theorem ppFold_map_label (gp : List Row → Int → List Int × List Int) (T : List Row)
    (t0 : Int) (L : List Nat) :
    ∀ (acc : List PredRow),
      (L.foldl (ppStep gp T t0) acc).map (fun e => e.label)
        = acc.map (fun e => e.label) := by
  induction L with
  | nil => intro acc; rfl
  | cons lbl L ih =>
    intro acc
    rw [List.foldl_cons, ih, ppStep_map_label]

theorem map_update_preserve {acc : List PredRow} {lbl2 pl : Nat} {w tgt : PredRow}
    (hne : lbl2 ≠ pl) (hw : w.label = lbl2)
    (hacc : ∀ e ∈ acc, e.label = pl → e = tgt) :
    ∀ e ∈ acc.map (fun q => if q.label = lbl2 then w else q),
      e.label = pl → e = tgt := by
  intro e he hel
  obtain ⟨q, hq, he2⟩ := List.mem_map.mp he
  by_cases hql : q.label = lbl2
  · rw [if_pos hql] at he2
    subst he2
    exact absurd (hw ▸ hel) hne
  · rw [if_neg hql] at he2
    subst he2
    exact hacc q hq hel

theorem ppStep_preserve_entry (gp : List Row → Int → List Int × List Int)
    (T : List Row) (t0 : Int) {acc : List PredRow} {lbl2 pl : Nat} {tgt : PredRow}
    (hne : lbl2 ≠ pl) (hacc : ∀ e ∈ acc, e.label = pl → e = tgt) :
    ∀ e ∈ ppStep gp T t0 acc lbl2, e.label = pl → e = tgt := by
  intro e he hel
  unfold ppStep at he
  split at he
  · exact hacc e he hel
  · split at he
    · exact hacc e he hel
    · split at he
      · exact map_update_preserve hne rfl hacc e he hel
      · exact map_update_preserve hne rfl hacc e he hel

theorem ppStep_establish_entry (gp : List Row → Int → List Int × List Int)
    {T : List Row} {t0 : Int} {p : Row}
    (hnd : (T.map (fun r => (r.t, r.label))).Nodup) (hp : p ∈ T) (hpt : p.t = t0)
    (hshort : ((T.filter (fun r => decide (r.label = p.label))).filter
        (fun r => decide (r.t ≤ t0))).length < 3)
    (acc : List PredRow) :
    ∀ e ∈ ppStep gp T t0 acc p.label, e.label = p.label →
      e = PredRow.mk p.label p.pos (p.pos.map (fun _ => 0)) := by
  have hmemseg : p ∈ (T.filter (fun r => decide (r.label = p.label))).filter
      (fun r => decide (r.t ≤ t0)) :=
    List.mem_filter.mpr ⟨List.mem_filter.mpr ⟨hp, by simp⟩, by simp [hpt]⟩
  have hne0 : ¬ ((T.filter (fun r => decide (r.label = p.label))).filter
      (fun r => decide (r.t ≤ t0))).length = 0 := by
    intro h
    rw [List.length_eq_zero] at h
    rw [h] at hmemseg
    exact absurd hmemseg (by simp)
  have hany : ((T.filter (fun r => decide (r.label = p.label))).filter
      (fun r => decide (r.t ≤ t0))).any (fun r => decide (r.t = t0)) = true := by
    rw [List.any_eq_true]
    exact ⟨p, hmemseg, by simp [hpt]⟩
  have hlen3 : (((T.filter (fun r => decide (r.label = p.label))).filter
      (fun r => decide (r.t ≤ t0))).map (fun r => r.t)).length < 3 := by
    rw [List.length_map]; exact hshort
  have hget : (((T.filter (fun r => decide (r.label = p.label))).filter
      (fun r => decide (r.t ≤ t0))).filter (fun r => decide (r.t = t0))).getD 0 dRow
      = p := by
    apply all_eq_getD_zero
    · exact List.ne_nil_of_mem (List.mem_filter.mpr ⟨hmemseg, by simp [hpt]⟩)
    · intro x hx
      have hx1 := List.mem_filter.mp hx
      have hx2 := List.mem_filter.mp hx1.1
      have hx3 := List.mem_filter.mp hx2.1
      refine pairsNodup_unique hnd hx3.1 hp ?_ ?_
      · have hxt : x.t = t0 := by simpa using hx1.2
        rw [hxt, hpt]
      · simpa using hx3.2
  unfold ppStep
  rw [if_neg hne0, if_neg (not_not_intro hany), if_pos hlen3, hget]
  show ∀ e ∈ acc.map (fun q =>
      if q.label = p.label then PredRow.mk p.label p.pos (p.pos.map (fun _ => 0))
      else q),
    e.label = p.label → e = PredRow.mk p.label p.pos (p.pos.map (fun _ => 0))
  intro e he hel
  obtain ⟨q, hq, he2⟩ := List.mem_map.mp he
  by_cases hql : q.label = p.label
  · rw [if_pos hql] at he2
    exact he2.symm
  · rw [if_neg hql] at he2
    subst he2
    exact absurd hel hql

theorem ppFold_preserve (gp : List Row → Int → List Int × List Int) (T : List Row)
    (t0 : Int) {pl : Nat} {tgt : PredRow} :
    ∀ (L : List Nat) (acc : List PredRow), pl ∉ L →
      (∀ e ∈ acc, e.label = pl → e = tgt) →
      ∀ e ∈ L.foldl (ppStep gp T t0) acc, e.label = pl → e = tgt
  | [], acc, _, hacc => hacc
  | lbl2 :: L, acc, hnm, hacc => by
    rw [List.foldl_cons]
    refine ppFold_preserve gp T t0 L _ (fun h => hnm (List.mem_cons_of_mem _ h)) ?_
    exact ppStep_preserve_entry gp T t0
      (fun h => hnm (by rw [h]; exact List.mem_cons_self _ _)) hacc

theorem ppFold_entry (gp : List Row → Int → List Int × List Int)
    {T : List Row} {t0 : Int} {p : Row}
    (hnd : (T.map (fun r => (r.t, r.label))).Nodup) (hp : p ∈ T) (hpt : p.t = t0)
    (hshort : ((T.filter (fun r => decide (r.label = p.label))).filter
        (fun r => decide (r.t ≤ t0))).length < 3) :
    ∀ (L : List Nat) (acc : List PredRow), L.Nodup → p.label ∈ L →
      ∀ e ∈ L.foldl (ppStep gp T t0) acc, e.label = p.label →
        e = PredRow.mk p.label p.pos (p.pos.map (fun _ => 0))
  | [], _, _, hmem => absurd hmem (by simp)
  | lbl2 :: L, acc, hndL, hmem => by
    rw [List.foldl_cons]
    rcases List.mem_cons.mp hmem with hh | hh
    · refine ppFold_preserve gp T t0 L _ ?_ ?_
      · rw [hh]
        exact (List.nodup_cons.mp hndL).1
      · rw [← hh]
        exact ppStep_establish_entry gp hnd hp hpt hshort acc
    · exact ppFold_entry gp hnd hp hpt hshort L _ (List.nodup_cons.mp hndL).2 hh

theorem ppStep_id_of_min (gp : List Row → Int → List Int × List Int)
    {T : List Row} {t0 : Int} (hmin : ∀ r ∈ T, t0 ≤ r.t)
    (hnd : (T.map (fun r => (r.t, r.label))).Nodup) (lbl : Nat) :
    ppStep gp T t0
      ((rowsAt T t0).map (fun r => PredRow.mk r.label r.pos (r.pos.map (fun _ => 0))))
      lbl
    = (rowsAt T t0).map (fun r => PredRow.mk r.label r.pos (r.pos.map (fun _ => 0))) := by
  by_cases h0 : ((T.filter (fun r => decide (r.label = lbl))).filter
      (fun r => decide (r.t ≤ t0))).length = 0
  · unfold ppStep
    rw [if_pos h0]
  · have hTnd : T.Nodup := List.Nodup.of_map _ hnd
    have hSnd : ((T.filter (fun r => decide (r.label = lbl))).filter
        (fun r => decide (r.t ≤ t0))).Nodup := (hTnd.filter _).filter _
    have hfacts : ∀ x ∈ (T.filter (fun r => decide (r.label = lbl))).filter
        (fun r => decide (r.t ≤ t0)), x ∈ T ∧ x.label = lbl ∧ x.t = t0 := by
      intro x hx
      have hx1 := List.mem_filter.mp hx
      have hx2 := List.mem_filter.mp hx1.1
      refine ⟨hx2.1, by simpa using hx2.2, ?_⟩
      have hle : x.t ≤ t0 := by simpa using hx1.2
      exact le_antisymm hle (hmin x hx2.1)
    have hp0mem : ((T.filter (fun r => decide (r.label = lbl))).filter
        (fun r => decide (r.t ≤ t0))).getD 0 dRow
        ∈ (T.filter (fun r => decide (r.label = lbl))).filter
          (fun r => decide (r.t ≤ t0)) :=
      getD_mem dRow _ 0 (Nat.pos_of_ne_zero h0)
    have hall : ∀ x ∈ (T.filter (fun r => decide (r.label = lbl))).filter
        (fun r => decide (r.t ≤ t0)),
        x = ((T.filter (fun r => decide (r.label = lbl))).filter
          (fun r => decide (r.t ≤ t0))).getD 0 dRow := by
      intro x hx
      obtain ⟨hxT, hxl, hxt⟩ := hfacts x hx
      obtain ⟨hpT, hpl, hpt⟩ := hfacts _ hp0mem
      exact pairsNodup_unique hnd hxT hpT (by rw [hxt, hpt]) (by rw [hxl, hpl])
    have hlen1 : ((T.filter (fun r => decide (r.label = lbl))).filter
        (fun r => decide (r.t ≤ t0))).length ≤ 1 :=
      nodup_all_eq_length_le_one hSnd hall
    have hany : ((T.filter (fun r => decide (r.label = lbl))).filter
        (fun r => decide (r.t ≤ t0))).any (fun r => decide (r.t = t0)) = true := by
      rw [List.any_eq_true]
      refine ⟨_, hp0mem, ?_⟩
      simp only [decide_eq_true_eq]
      exact (hfacts _ hp0mem).2.2
    have hlen3 : (((T.filter (fun r => decide (r.label = lbl))).filter
        (fun r => decide (r.t ≤ t0))).map (fun r => r.t)).length < 3 := by
      rw [List.length_map]; omega
    have hfs : ((T.filter (fun r => decide (r.label = lbl))).filter
        (fun r => decide (r.t ≤ t0))).filter (fun r => decide (r.t = t0))
        = (T.filter (fun r => decide (r.label = lbl))).filter
          (fun r => decide (r.t ≤ t0)) := by
      rw [List.filter_eq_self]
      intro x hx
      simp [(hfacts x hx).2.2]
    unfold ppStep
    rw [if_neg h0, if_neg (not_not_intro hany), if_pos hlen3, hfs, List.map_map]
    refine List.map_congr_left ?_
    intro r hr
    have hrt : r.t = t0 := by
      have := (List.mem_filter.mp hr).2
      simpa using this
    show (if (PredRow.mk r.label r.pos (r.pos.map (fun _ => 0))).label = lbl then _ else _)
        = PredRow.mk r.label r.pos (r.pos.map (fun _ => 0))
    by_cases hrl : r.label = lbl
    · rw [if_pos hrl]
      have hrS : r ∈ (T.filter (fun r => decide (r.label = lbl))).filter
          (fun r => decide (r.t ≤ t0)) :=
        List.mem_filter.mpr
          ⟨List.mem_filter.mpr ⟨mem_of_mem_rowsAt hr, by simp [hrl]⟩, by simp [hrt]⟩
      rw [← hall r hrS, hrl]
    · rw [if_neg hrl]

theorem ppFold_id_of_min (gp : List Row → Int → List Int × List Int)
    {T : List Row} {t0 : Int} (hmin : ∀ r ∈ T, t0 ≤ r.t)
    (hnd : (T.map (fun r => (r.t, r.label))).Nodup) :
    ∀ (L : List Nat),
      L.foldl (ppStep gp T t0)
        ((rowsAt T t0).map (fun r => PredRow.mk r.label r.pos (r.pos.map (fun _ => 0))))
      = (rowsAt T t0).map (fun r => PredRow.mk r.label r.pos (r.pos.map (fun _ => 0)))
  | [] => rfl
  | lbl :: L => by
    rw [List.foldl_cons, ppStep_id_of_min gp hmin hnd lbl]
    exact ppFold_id_of_min gp hmin hnd L

theorem predict_positions_raw (gp : List Row → Int → List Int × List Int)
    {T : List Row} {t0 : Int} (t1 : Int) (hmin : ∀ r ∈ T, t0 ≤ r.t)
    (hnd : (T.map (fun r => (r.t, r.label))).Nodup) :
    predict_positions gp T t0 t1
      = (rowsAt T t0).map (fun r => PredRow.mk r.label r.pos (r.pos.map (fun _ => 0))) :=
  ppFold_id_of_min gp hmin hnd (labelsOf T)

/-! ### Lemmas about `get_track` -/

theorem setNthAt_id : ∀ (T : List Row) (t : Int) (n v : Nat),
    ((rowsAt T t).getD n dRow).newLabel = v → setNthAt T t n v = T
  | [], _, _, _, _ => rfl
  | r :: rs, t, n, v, h => by
    by_cases hr : r.t = t
    · rw [rowsAt_cons_pos hr] at h
      match n, h with
      | 0, h =>
        rw [show setNthAt (r :: rs) t 0 v = { r with newLabel := v } :: rs by
          simp [setNthAt, hr]]
        have : (r :: rowsAt rs t).getD 0 dRow = r := rfl
        rw [this] at h
        rw [← h]
      | m + 1, h =>
        rw [show setNthAt (r :: rs) t (m + 1) v = r :: setNthAt rs t m v by
          simp [setNthAt, hr]]
        rw [setNthAt_id rs t m v h]
    · rw [rowsAt_cons_neg hr] at h
      rw [show setNthAt (r :: rs) t n v = r :: setNthAt rs t n v by
        simp [setNthAt, hr]]
      rw [setNthAt_id rs t n v h]

theorem ptFold_id {t0 t1 : Int} {f : Nat → Nat} {T : List Row}
    (hcons : ∀ n, n < n1of T t1 → f n < n0of T t0 ∧
      ((rowsAt T t0).getD (f n) dRow).newLabel
        = ((rowsAt T t1).getD n dRow).newLabel) :
    ∀ k, k ≤ n1of T t1 → ptFold t0 t1 (n0of T t0) f T k = T
  | 0, _ => rfl
  | k + 1, hk => by
    have ihk := ptFold_id hcons k (by omega)
    rw [ptFold_succ_set, ihk]
    apply setNthAt_id
    have h1 := (hcons k (by omega)).1
    have h2 := (hcons k (by omega)).2
    unfold ptVal
    rw [ihk, if_neg (by omega)]
    exact h2.symm

theorem position_track_id {t0 t1 : Int} {f : Nat → Nat} {T : List Row}
    (hcons : ∀ n, n < n1of T t1 → f n < n0of T t0 ∧
      ((rowsAt T t0).getD (f n) dRow).newLabel
        = ((rowsAt T t1).getD n dRow).newLabel) :
    position_track t0 t1 true f T = T := by
  unfold position_track
  simp only [if_true]
  exact ptFold_id hcons (n1of T t1) le_rfl

theorem position_track_getD_ne {t0 t1 : Int} {ok : Bool} {f : Nat → Nat}
    {acc : List Row} {i : Nat} (h : (acc.getD i dRow).t ≠ t1) :
    (position_track t0 t1 ok f acc).getD i dRow = acc.getD i dRow := by
  unfold position_track
  cases ok with
  | true =>
    simp only [if_true]
    exact getD_ptFold_ne_t1 _ _ _ _ _ h _
  | false =>
    simp only [Bool.false_eq_true, if_false]
    exact getD_ptFold_ne_t1 _ _ _ _ _ h _

theorem length_position_track {t0 t1 : Int} {ok : Bool} {f : Nat → Nat}
    {acc : List Row} : (position_track t0 t1 ok f acc).length = acc.length := by
  unfold position_track
  cases ok with
  | true =>
    simp only [if_true]
    exact length_ptFold _ _ _ _ _ _
  | false =>
    simp only [Bool.false_eq_true, if_false]
    exact length_ptFold _ _ _ _ _ _

theorem rowsAt_map_init : ∀ (T : List Row) (t : Int),
    rowsAt (T.map (fun r => { r with newLabel := r.label })) t
      = (rowsAt T t).map (fun r => { r with newLabel := r.label })
  | [], _ => rfl
  | r :: rs, t => by
    rw [List.map_cons]
    by_cases hr : r.t = t
    · rw [rowsAt_cons_pos (show ({ r with newLabel := r.label } : Row).t = t from hr),
        rowsAt_cons_pos hr, List.map_cons, rowsAt_map_init rs t]
    · rw [rowsAt_cons_neg (show ¬ ({ r with newLabel := r.label } : Row).t = t from hr),
        rowsAt_cons_neg hr, rowsAt_map_init rs t]

theorem mem_tail_ne_head {x : Int} {T : List Row} (hT : T ≠ [])
    (hx : x ∈ (timesOf T).tail) : x ≠ (T.map (fun r => r.t)).headD 0 := by
  match T, hT with
  | r :: rs, _ =>
    rw [show timesOf (r :: rs) = r.t :: dedupAux [r.t] (rs.map (fun q => q.t)) by
      rw [timesOf, List.map_cons, dedupKeep_cons]] at hx
    have hx2 : x ∈ dedupAux [r.t] (rs.map (fun q => q.t)) := hx
    have := (mem_dedupAux x _ _).mp hx2
    intro hxa
    apply this.2
    rw [show (((r :: rs).map (fun q => q.t)).headD 0) = r.t from rfl] at hxa
    rw [hxa]
    exact List.mem_cons_self _ _

theorem consecPairs_snd_mem_tail {p : Int × Int} {l : List Int}
    (hp : p ∈ consecPairs l) : p.2 ∈ l.tail :=
  (List.of_mem_zip hp).2

theorem get_track_first_frame {T : List Row} {sol : Int → Int → Bool × (Nat → Nat)}
    {i : Nat} (hi : i < T.length)
    (ht : (T.getD i dRow).t = (T.map (fun r => r.t)).headD 0) :
    ((get_track sol T).getD i dRow).label = (T.getD i dRow).label := by
  have hTne : T ≠ [] := by
    intro h
    rw [h] at hi
    exact absurd hi (by simp)
  have hinit : (T.map (fun r => { r with newLabel := r.label })).getD i dRow
      = { T.getD i dRow with newLabel := (T.getD i dRow).label } :=
    getD_map' _ dRow dRow T i hi
  have hinv : ∀ (L : List (Int × Int)), (∀ p ∈ L, p.2 ∈ (timesOf T).tail) →
      ∀ acc : List Row,
        acc.getD i dRow = { T.getD i dRow with newLabel := (T.getD i dRow).label } →
        acc.length = T.length →
        ((L.foldl (fun acc p =>
            position_track p.1 p.2 (sol p.1 p.2).1 (sol p.1 p.2).2 acc) acc).getD i dRow
          = { T.getD i dRow with newLabel := (T.getD i dRow).label })
        ∧ (L.foldl (fun acc p =>
            position_track p.1 p.2 (sol p.1 p.2).1 (sol p.1 p.2).2 acc) acc).length
          = T.length := by
    intro L
    induction L with
    | nil => exact fun _ acc h1 h2 => ⟨h1, h2⟩
    | cons p L ih =>
      intro hmem acc h1 h2
      rw [List.foldl_cons]
      have hne : (acc.getD i dRow).t ≠ p.2 := by
        rw [h1]
        show (T.getD i dRow).t ≠ p.2
        intro hteq
        exact (mem_tail_ne_head hTne (hmem p (List.mem_cons_self _ _))) (hteq ▸ ht)
      refine ih (fun q hq => hmem q (List.mem_cons_of_mem _ hq)) _ ?_ ?_
      · rw [position_track_getD_ne hne]
        exact h1
      · rw [length_position_track]
        exact h2
  have hmain := hinv (consecPairs (timesOf T)) (fun q hq => consecPairs_snd_mem_tail hq)
    (T.map (fun r => { r with newLabel := r.label })) hinit (by rw [List.length_map])
  show ((((consecPairs (timesOf T)).foldl (fun acc p =>
      position_track p.1 p.2 (sol p.1 p.2).1 (sol p.1 p.2).2 acc)
      (T.map (fun r => { r with newLabel := r.label }))).map
      (fun r => { r with label := r.newLabel })).getD i dRow).label
    = (T.getD i dRow).label
  rw [getD_map' (fun r => { r with label := r.newLabel }) dRow dRow _ i
    (by rw [hmain.2]; exact hi)]
  show (((consecPairs (timesOf T)).foldl (fun acc p =>
      position_track p.1 p.2 (sol p.1 p.2).1 (sol p.1 p.2).2 acc)
      (T.map (fun r => { r with newLabel := r.label }))).getD i dRow).newLabel
    = (T.getD i dRow).label
  rw [hmain.1]

theorem get_track_id {T : List Row} {sol : Int → Int → Bool × (Nat → Nat)}
    (hc : ∀ p ∈ consecPairs (timesOf T), (sol p.1 p.2).1 = true ∧
      ∀ n, n < n1of T p.2 → (sol p.1 p.2).2 n < n0of T p.1 ∧
        ((rowsAt T p.1).getD ((sol p.1 p.2).2 n) dRow).label
          = ((rowsAt T p.2).getD n dRow).label) :
    (get_track sol T).map (fun r => r.label) = T.map (fun r => r.label) := by
  have hstep : ∀ p ∈ consecPairs (timesOf T),
      position_track p.1 p.2 (sol p.1 p.2).1 (sol p.1 p.2).2
        (T.map (fun r => { r with newLabel := r.label }))
      = T.map (fun r => { r with newLabel := r.label }) := by
    intro p hp
    rw [(hc p hp).1]
    apply position_track_id
    intro n hn
    have hn1 : n1of (T.map (fun r => { r with newLabel := r.label })) p.2
        = n1of T p.2 := by
      unfold n1of
      rw [rowsAt_map_init, List.length_map]
    have hn0 : n0of (T.map (fun r => { r with newLabel := r.label })) p.1
        = n0of T p.1 := by
      unfold n0of
      rw [rowsAt_map_init, List.length_map]
    rw [hn1] at hn
    obtain ⟨hflt, hlab⟩ := (hc p hp).2 n hn
    constructor
    · rw [hn0]
      exact hflt
    · rw [rowsAt_map_init, rowsAt_map_init]
      rw [getD_map' (fun r => { r with newLabel := r.label }) dRow dRow _ _ hflt]
      rw [getD_map' (fun r => { r with newLabel := r.label }) dRow dRow _ _ hn]
      show ((rowsAt T p.1).getD ((sol p.1 p.2).2 n) dRow).label
        = ((rowsAt T p.2).getD n dRow).label
      exact hlab
  have hfold : ∀ (L : List (Int × Int)), (∀ p ∈ L, p ∈ consecPairs (timesOf T)) →
      L.foldl (fun acc p =>
          position_track p.1 p.2 (sol p.1 p.2).1 (sol p.1 p.2).2 acc)
        (T.map (fun r => { r with newLabel := r.label }))
      = T.map (fun r => { r with newLabel := r.label }) := by
    intro L
    induction L with
    | nil => exact fun _ => rfl
    | cons p L ih =>
      intro hsub
      rw [List.foldl_cons, hstep p (hsub p (List.mem_cons_self _ _))]
      exact ih (fun q hq => hsub q (List.mem_cons_of_mem _ hq))
  show (((consecPairs (timesOf T)).foldl (fun acc p =>
      position_track p.1 p.2 (sol p.1 p.2).1 (sol p.1 p.2).2 acc)
      (T.map (fun r => { r with newLabel := r.label }))).map
      (fun r => { r with label := r.newLabel })).map (fun r => r.label)
    = T.map (fun r => r.label)
  rw [hfold _ (fun p hp => hp), List.map_map, List.map_map]
  exact List.map_congr_left (fun r _ => rfl)

theorem cms_partition {T : List Row} {f : Nat → Nat}
    (hb : ∀ n, n < ns T → ns T ≤ f n) :
    ∀ i j, i < T.length → j < T.length →
      (((close_merge_split f T).getD i dRow).label
          = ((close_merge_split f T).getD j dRow).label
        ↔ (T.getD i dRow).label = (T.getD j dRow).label) := by
  have hmono : ∀ n m, n < m → m < ns T →
      cmsLabelAfter f T n < cmsLabelAfter f T m := by
    intro n m hnm hm
    rw [cmsLabelAfter_eq (lt_trans hnm hm), cmsLabelAfter_eq hm]
    exact cmsVal_birth_lt _ _ _ hnm hm (hb m hm)
  have hinj : ∀ n m, n < ns T → m < ns T →
      cmsLabelAfter f T n = cmsLabelAfter f T m → n = m := by
    intro n m hn hm heq
    rcases Nat.lt_trichotomy n m with h | h | h
    · exact absurd heq (Nat.ne_of_lt (hmono n m h hm))
    · exact h
    · exact absurd heq.symm (Nat.ne_of_lt (hmono m n h hn))
  intro i j hi hj
  rw [close_merge_split_label hi, close_merge_split_label hj]
  constructor
  · intro h
    have hmi := label_mem_uniqueOld hi
    have hmj := label_mem_uniqueOld hj
    have := hinj _ _ (idxOfN_lt_length hmi) (idxOfN_lt_length hmj) h
    rw [← getD_idxOfN hmi, ← getD_idxOfN hmj, this]
  · intro h
    rw [h]

theorem validFrameMatch_birth {T : List Row} {t0 t1 thresh : Int}
    {dist : List Int → List Int → Int} {f : Nat → Nat} {j : Nat}
    (hj : j < n1of T t1)
    (hfar : ∀ i, i < n0of T t0 →
      thresh < dist (((rowsAt T t0).getD i dRow).pos) (((rowsAt T t1).getD j dRow).pos))
    (hv : validFrameMatch T t0 t1 thresh dist f = true) :
    n0of T t0 ≤ f j := by
  by_contra hlt
  push_neg at hlt
  unfold validFrameMatch at hv
  rw [List.all_eq_true] at hv
  have hm := hv j (List.mem_range.mpr hj)
  rw [Bool.or_eq_true, Bool.not_eq_true', decide_eq_false_iff_not] at hm
  rcases hm with hm | hm
  · exact hm hlt
  · rw [decide_eq_true_eq] at hm
    have := hfar (f j) hlt
    omega

/-! ### The claims -/

/-- C1: whenever the Frame Linker (`position_track`) or the Gap Closer
(`close_merge_split`) assigns a birth, the fresh label is `max + 1` over the
working labels of the state at the moment of assignment — hence strictly
greater than every label then in use — and two distinct births within the same
call (so within the same time point) never receive the same label.  For
`position_track` the state when row `n` is processed is `ptFold … n`; for
`close_merge_split` the labels in use are the entries of the working array
`cmsFold … n` together with the labels still on the rows of the table. -/
theorem c1_birth_labels_fresh_and_distinct :
    (∀ (T : List Row) (t0 t1 : Int) (f : Nat → Nat) (n : Nat),
      n < n1of T t1 → n0of T t0 ≤ f n →
      t1LabelAfter t0 t1 true f T n
          = maxNewLabel (ptFold t0 t1 (n0of T t0) f T n) + 1
        ∧ ∀ r ∈ ptFold t0 t1 (n0of T t0) f T n,
            r.newLabel < t1LabelAfter t0 t1 true f T n)
    ∧ (∀ (T : List Row) (t0 t1 : Int) (f : Nat → Nat) (n m : Nat),
      n < m → m < n1of T t1 → n0of T t0 ≤ f n → n0of T t0 ≤ f m →
      t1LabelAfter t0 t1 true f T n ≠ t1LabelAfter t0 t1 true f T m)
    ∧ (∀ (T : List Row) (f : Nat → Nat) (n : Nat),
      n < ns T → ns T ≤ f n →
      cmsLabelAfter f T n = listMaxN (cmsFold (ns T) f (uniqueOld T) n) + 1
        ∧ (∀ x ∈ cmsFold (ns T) f (uniqueOld T) n, x < cmsLabelAfter f T n)
        ∧ ∀ r ∈ T, r.label < cmsLabelAfter f T n)
    ∧ (∀ (T : List Row) (f : Nat → Nat) (n m : Nat),
      n < m → m < ns T → ns T ≤ f n → ns T ≤ f m →
      cmsLabelAfter f T n ≠ cmsLabelAfter f T m) := by
  refine ⟨?_, ?_, ?_, ?_⟩
  · intro T t0 t1 f n hn hb
    rw [t1LabelAfter_true t0 t1 f T hn]
    exact ⟨ptVal_birth t0 t1 _ f T hb, ptVal_birth_fresh t0 t1 _ f T hb⟩
  · intro T t0 t1 f n m hnm hm hbn hbm
    rw [t1LabelAfter_true t0 t1 f T (lt_trans hnm hm), t1LabelAfter_true t0 t1 f T hm]
    exact Nat.ne_of_lt (ptVal_birth_lt t0 t1 _ f T hnm hm hbm)
  · intro T f n hn hb
    rw [cmsLabelAfter_eq hn]
    exact ⟨cmsVal_birth _ f _ hb, cmsVal_birth_fresh _ f _ hb,
      cmsVal_birth_gt_labels hn hb⟩
  · intro T f n m hnm hm hbn hbm
    rw [cmsLabelAfter_eq (lt_trans hnm hm), cmsLabelAfter_eq hm]
    exact Nat.ne_of_lt (cmsVal_birth_lt _ f _ hnm hm hbm)

/-- Witness for C1 on a concrete three-detection table (`TW1`, one detection
at time 0 and two at time 1) with an all-birth solver output. -/
theorem c1_birth_labels_fresh_and_distinct_witness :
    (t1LabelAfter 0 1 true (fun _ => 7) TW1 0
        = maxNewLabel (ptFold 0 1 (n0of TW1 0) (fun _ => 7) TW1 0) + 1)
    ∧ t1LabelAfter 0 1 true (fun _ => 7) TW1 0
        ≠ t1LabelAfter 0 1 true (fun _ => 7) TW1 1
    ∧ cmsLabelAfter (fun _ => 5) TW1 0
        = listMaxN (cmsFold (ns TW1) (fun _ => 5) (uniqueOld TW1) 0) + 1
    ∧ cmsLabelAfter (fun _ => 5) TW1 0 ≠ cmsLabelAfter (fun _ => 5) TW1 1 :=
  ⟨(c1_birth_labels_fresh_and_distinct.1 TW1 0 1 (fun _ => 7) 0
      (by decide) (by decide)).1,
   c1_birth_labels_fresh_and_distinct.2.1 TW1 0 1 (fun _ => 7) 0 1
      (by decide) (by decide) (by decide) (by decide),
   (c1_birth_labels_fresh_and_distinct.2.2.1 TW1 (fun _ => 5) 0
      (by decide) (by decide)).1,
   c1_birth_labels_fresh_and_distinct.2.2.2 TW1 (fun _ => 5) 0 1
      (by decide) (by decide) (by decide) (by decide)⟩

/-- C2: when the solver fails on the pair `(t0, t1)` (`AssertionError`, the
fallback loop with `ok = false`), `position_track` returns normally: rows of
times other than `t1` are unchanged in place and the length is unchanged (so
`get_track` continues with the later pairs), while every detection of frame
`t1` receives a brand-new birth label, strictly greater than every working
label of the state at the moment of its assignment and pairwise distinct.
The `RuntimeWarning` is an I/O side effect outside the table model. -/
theorem c2_solver_failure_all_births :
    ∀ (T : List Row) (t0 t1 : Int) (f : Nat → Nat),
      (position_track t0 t1 false f T).length = T.length
      ∧ (∀ i, (T.getD i dRow).t ≠ t1 →
          (position_track t0 t1 false f T).getD i dRow = T.getD i dRow)
      ∧ (∀ n, n < n1of T t1 →
          t1LabelAfter t0 t1 false f T n
            = maxNewLabel (ptFold t0 t1 (n0of T t0) (fun _ => n0of T t0) T n) + 1
          ∧ ∀ r ∈ ptFold t0 t1 (n0of T t0) (fun _ => n0of T t0) T n,
              r.newLabel < t1LabelAfter t0 t1 false f T n)
      ∧ (∀ n m, n < m → m < n1of T t1 →
          t1LabelAfter t0 t1 false f T n ≠ t1LabelAfter t0 t1 false f T m) := by
  intro T t0 t1 f
  refine ⟨length_position_track, fun i hi => position_track_getD_ne hi, ?_, ?_⟩
  · intro n hn
    rw [t1LabelAfter_false t0 t1 f T hn]
    exact ⟨ptVal_birth t0 t1 _ _ T le_rfl, ptVal_birth_fresh t0 t1 _ _ T le_rfl⟩
  · intro n m hnm hm
    rw [t1LabelAfter_false t0 t1 f T (lt_trans hnm hm), t1LabelAfter_false t0 t1 f T hm]
    exact Nat.ne_of_lt (ptVal_birth_lt t0 t1 _ _ T hnm hm le_rfl)

/-- Witness for C2 on the concrete table `TW2`. -/
theorem c2_solver_failure_all_births_witness :
    (position_track 0 1 false (fun _ => 0) TW2).length = TW2.length
    ∧ t1LabelAfter 0 1 false (fun _ => 0) TW2 0
        ≠ t1LabelAfter 0 1 false (fun _ => 0) TW2 1 :=
  ⟨(c2_solver_failure_all_births TW2 0 1 (fun _ => 0)).1,
   (c2_solver_failure_all_births TW2 0 1 (fun _ => 0)).2.2.2 0 1
      (by decide) (by decide)⟩

/-- C3: linking is gated by the threshold `max_disp * (t1 - t0)`; a frame-`t1`
detection whose distance, under the configured distance transform, to every
`t0` detection exceeds this threshold can only be matched to the dummy block
by any solver output respecting the gating contract (`validFrameMatch`,
modelled from the spec for the external `get_lapmat`/`lapjv`), and is
therefore assigned a fresh birth label, never a `t0` detection's label. -/
theorem c3_gating_forces_birth :
    ∀ (T : List Row) (t0 t1 maxDisp : Int)
      (dist : List Int → List Int → Int) (f : Nat → Nat) (j : Nat),
      j < n1of T t1 →
      (∀ i, i < n0of T t0 →
        maxDisp * (t1 - t0)
          < dist (((rowsAt T t0).getD i dRow).pos)
              (((rowsAt T t1).getD j dRow).pos)) →
      validFrameMatch T t0 t1 (maxDisp * (t1 - t0)) dist f = true →
      n0of T t0 ≤ f j
      ∧ t1LabelAfter t0 t1 true f T j
          = maxNewLabel (ptFold t0 t1 (n0of T t0) f T j) + 1
      ∧ ∀ r ∈ ptFold t0 t1 (n0of T t0) f T j,
          r.newLabel < t1LabelAfter t0 t1 true f T j := by
  intro T t0 t1 maxDisp dist f j hj hfar hv
  have hb : n0of T t0 ≤ f j := validFrameMatch_birth hj hfar hv
  rw [t1LabelAfter_true t0 t1 f T hj]
  exact ⟨hb, ptVal_birth t0 t1 _ f T hb, ptVal_birth_fresh t0 t1 _ f T hb⟩

/-- Witness for C3: in `TW3` the single time-1 detection lies at squared
distance 10000 from the single time-0 detection while the gate is
`1 * (1 - 0) = 1`, so any valid solver output makes it a birth. -/
theorem c3_gating_forces_birth_witness :
    n0of TW3 0 ≤ (fun _ => 1) 0
    ∧ t1LabelAfter 0 1 true (fun _ => 1) TW3 0
        = maxNewLabel (ptFold 0 1 (n0of TW3 0) (fun _ => 1) TW3 0) + 1 :=
  ⟨(c3_gating_forces_birth TW3 0 1 1 distSq (fun _ => 1) 0
      (by decide) (by decide) (by decide)).1,
   (c3_gating_forces_birth TW3 0 1 1 distSq (fun _ => 1) 0
      (by decide) (by decide) (by decide)).2.1⟩

/-- C4 counterexample: in `T4c` the solver stitches segment 0 (label 0) to
segment 1 (label 1) and leaves segment 1 to the dummy block — a valid
gap-closing output (`validCMS`).  The claim predicts that both segments share
the lower label, i.e. final labels `[0, 0]`; the code instead assigns segment
0 the partner's label 1 and segment 1 a fresh label 2, so the two segments do
not even share a label. -/
theorem c4_counterexample :
    validCMS distSq 10 10 T4c f4c = true
    ∧ (close_merge_split f4c T4c).map (fun r => r.label) = [1, 2]
    ∧ ¬ ((close_merge_split f4c T4c).map (fun r => r.label) = [0, 0]) := by
  decide

/-- C4 as amended: a segment `n` matched to a real partner `idx_in` receives
the CURRENT value of the working array at the partner's position (initially
the partner's label, possibly already rewritten) — not the lower of the two
labels, and the pair need not end up sharing a label; a segment whose partner
index falls outside the real segment range receives a fresh label one greater
than the current maximum of the working array; the final mapping is applied to
every detection bearing each old label. -/
theorem c4_stitch_label_assignment :
    (∀ (T : List Row) (f : Nat → Nat) (n : Nat), n < ns T →
      cmsLabelAfter f T n
        = if ns T ≤ f n then listMaxN (cmsFold (ns T) f (uniqueOld T) n) + 1
          else (cmsFold (ns T) f (uniqueOld T) n).getD (f n) 0)
    ∧ (∀ (T : List Row) (f : Nat → Nat) (i : Nat), i < T.length →
      ((close_merge_split f T).getD i dRow).label
        = cmsLabelAfter f T (idxOfN (uniqueOld T) ((T.getD i dRow).label))) := by
  constructor
  · intro T f n hn
    rw [cmsLabelAfter_eq hn]
    rfl
  · intro T f i hi
    exact close_merge_split_label hi

/-- Witness for the amended C4 on the concrete table `T4w`. -/
theorem c4_stitch_label_assignment_witness :
    (cmsLabelAfter f4w T4w 0
      = if ns T4w ≤ f4w 0 then listMaxN (cmsFold (ns T4w) f4w (uniqueOld T4w) 0) + 1
        else (cmsFold (ns T4w) f4w (uniqueOld T4w) 0).getD (f4w 0) 0)
    ∧ ((close_merge_split f4w T4w).getD 0 dRow).label
      = cmsLabelAfter f4w T4w (idxOfN (uniqueOld T4w) ((T4w.getD 0 dRow).label)) :=
  ⟨c4_stitch_label_assignment.1 T4w f4w 0 (by decide),
   c4_stitch_label_assignment.2 T4w f4w 0 (by decide)⟩

/-- C5: for a call `predict_positions(t0, t1)` in which `t1` is among the
first two observed times of the session — i.e. the pair is `(times[0],
times[1])`, so `t0` is the earliest time of the (time-ordered) table —
prediction is skipped for every label: the returned positions equal the raw
stored positions at `t0` and every returned uncertainty is zero.  (The
skip-guard on source line 203 compares a tuple with an integer and never
fires under Python 2; the same result is produced by the per-label fallbacks,
since no label can have three history points by the second time point.) -/
theorem c5_predict_skipped_first_times :
    ∀ (gp : List Row → Int → List Int × List Int) (T : List Row) (t0 t1 : Int),
      List.Pairwise (fun a b => a.t ≤ b.t) T →
      t0 = (T.map (fun r => r.t)).headD 0 →
      (T.map (fun r => (r.t, r.label))).Nodup →
      predict_positions gp T t0 t1
        = (rowsAt T t0).map
            (fun r => PredRow.mk r.label r.pos (r.pos.map (fun _ => 0))) := by
  intro gp T t0 t1 hsort ht0 hnd
  refine predict_positions_raw gp t1 ?_ hnd
  intro r hr
  cases T with
  | nil => exact absurd hr (by simp)
  | cons hd tl =>
    rw [ht0]
    show ((hd :: tl).map (fun r => r.t)).headD 0 ≤ r.t
    rw [show ((hd :: tl).map (fun r => r.t)).headD 0 = hd.t from rfl]
    rcases List.mem_cons.mp hr with h | h
    · rw [h]
    · exact (List.pairwise_cons.mp hsort).1 r h

/-- Witness for C5 on the concrete table `TW5` (two detections at time 0, one
at time 1): the returned frame is the raw time-0 frame with zero
uncertainties. -/
theorem c5_predict_skipped_first_times_witness :
    predict_positions gp0 TW5 0 1
      = (rowsAt TW5 0).map
          (fun r => PredRow.mk r.label r.pos (r.pos.map (fun _ => 0))) :=
  c5_predict_skipped_first_times gp0 TW5 0 1 (by decide) (by decide) (by decide)

/-- C6 counterexample: in `Tc6`, label 5 has two history points (times 0 and
1), so its history up to `t0 = 2` has fewer than 3 points and its most recent
point is not exactly `t0`; the claim says `predict_positions` returns its last
known position with zero uncertainty, but the returned frame contains no entry
for label 5 at all — labels absent at `t0` are silently omitted. -/
theorem c6_counterexample :
    ((predict_positions gp0 Tc6 2 3).all (fun e => decide (¬ e.label = 5)) = true)
    ∧ ¬ (Tc6.filter (fun r => decide (r.label = 5)) = [])
    ∧ ((Tc6.filter (fun r => decide (r.label = 5))).filter
        (fun r => decide (r.t ≤ 2))).length < 3 := by
  decide

/-- C6 as amended: `predict_positions` never raises and performs no
extrapolation for a label with insufficient history, but the fallback depends
on where the label lives: the returned frame contains exactly the labels
present at `t0` (in row order), so a label whose most recent point is not
exactly `t0` is OMITTED from the result rather than reported at its last known
position; a label present at `t0` whose history up to `t0` has fewer than 3
points is reported at its `t0` position with zero uncertainty. -/
theorem c6_insufficient_history_fallback :
    (∀ (gp : List Row → Int → List Int × List Int) (T : List Row) (t0 t1 : Int),
      (predict_positions gp T t0 t1).map (fun e => e.label)
        = (rowsAt T t0).map (fun r => r.label))
    ∧ (∀ (gp : List Row → Int → List Int × List Int) (T : List Row) (t0 t1 : Int)
        (p : Row),
      (T.map (fun r => (r.t, r.label))).Nodup → p ∈ T → p.t = t0 →
      ((T.filter (fun r => decide (r.label = p.label))).filter
        (fun r => decide (r.t ≤ t0))).length < 3 →
      ∀ e ∈ predict_positions gp T t0 t1, e.label = p.label →
        e = PredRow.mk p.label p.pos (p.pos.map (fun _ => 0))) := by
  constructor
  · intro gp T t0 t1
    show ((labelsOf T).foldl (ppStep gp T t0)
        ((rowsAt T t0).map
          (fun r => PredRow.mk r.label r.pos (r.pos.map (fun _ => 0))))).map
        (fun e => e.label)
      = (rowsAt T t0).map (fun r => r.label)
    rw [ppFold_map_label, List.map_map]
    exact List.map_congr_left (fun r _ => rfl)
  · intro gp T t0 t1 p hnd hp hpt hshort e he hel
    exact ppFold_entry gp hnd hp hpt hshort (labelsOf T) _ (nodup_dedupKeep _)
      (mem_dedupKeep.mpr (List.mem_map_of_mem _ hp)) e he hel

/-- Witness for the amended C6 on the concrete table `T6w`. -/
theorem c6_insufficient_history_fallback_witness :
    ((predict_positions gp0 T6w 2 3).map (fun e => e.label)
      = (rowsAt T6w 2).map (fun r => r.label))
    ∧ ∀ e ∈ predict_positions gp0 T6w 2 3, e.label = 0 →
        e = PredRow.mk 0 [3] ([3].map (fun _ => (0 : Int))) := by
  constructor
  · exact c6_insufficient_history_fallback.1 gp0 T6w 2 3
  · intro e he hel
    exact c6_insufficient_history_fallback.2 gp0 T6w 2 3 (Row.mk 2 0 [3] 0)
      (by decide) (by decide) rfl (by decide) e he hel

/-- C7: applying `reverse_track` twice restores the table up to the index
bookkeeping the transform manipulates: the double application equals the
original table with every time translated by the constant first time (so the
time ordering is exactly the original one), and the non-index row values
(label, position, working label) are restored identically, in the original
row order.  When the session starts at time 0 the translation is the
identity. -/
theorem c7_reverse_track_involution (T : List Row) :
    reverse_track (reverse_track T)
      = T.map (fun r => { r with t := r.t - (T.map (fun q => q.t)).headD 0 })
    ∧ (reverse_track (reverse_track T)).map (fun r => (r.label, r.pos, r.newLabel))
      = T.map (fun r => (r.label, r.pos, r.newLabel)) := by
  refine ⟨reverse_track_twice T, ?_⟩
  rw [reverse_track_twice T, List.map_map]
  exact List.map_congr_left (fun r _ => rfl)

/-- C8: `remove_shorts(min_length = k)` deletes exactly the detections of the
labels with fewer than `k` detections: the result is the original table
filtered to the rows whose label has at least `k` detections, so every
surviving segment's rows are identical in content, order and count. -/
theorem c8_remove_shorts_exact (k : Nat) (T : List Row) :
    remove_shorts k T
      = T.filter (fun r =>
          decide (k ≤ (T.filter (fun q => decide (q.label = r.label))).length)) :=
  remove_shorts_eq_filter k T

/-- C9 counterexample: `T9c` is a fully linked table (one segment, label 0,
two coincident detections), and the identity-consistent solver output is
valid for the frame pair; re-running the pipeline, `get_track` indeed keeps
the labels, but `close_merge_split` — whose only valid matching sends the
lone segment's end to the dummy block (`validCMS`) — renames the segment to
the fresh label 1, so the labels change. -/
theorem c9_counterexample :
    validFrameMatch T9c 0 1 1 distSq (fun _ => 0) = true
    ∧ (get_track sol9c T9c).map (fun r => r.label) = T9c.map (fun r => r.label)
    ∧ validCMS distSq 1 10 (get_track sol9c T9c) (fun _ => 1) = true
    ∧ ¬ ((close_merge_split (fun _ => 1) (get_track sol9c T9c)).map (fun r => r.label)
        = (get_track sol9c T9c).map (fun r => r.label)) := by
  decide

/-- C9 as amended: re-running the pipeline is NOT label-idempotent, but it is
partition-preserving in the following sense: `get_track` leaves every label
unchanged whenever the solver reproduces, for each consecutive pair, the
matching consistent with the existing labels; and `close_merge_split` with
every segment matched to the dummy block (as forced for segments with no
admissible stitching partner) applies an injective relabelling — two
detections share a label afterwards exactly when they did before, although the
labels themselves are renamed to fresh values. -/
theorem c9_rerun_pipeline :
    (∀ (T : List Row) (sol : Int → Int → Bool × (Nat → Nat)),
      (∀ p ∈ consecPairs (timesOf T), (sol p.1 p.2).1 = true ∧
        ∀ n, n < n1of T p.2 → (sol p.1 p.2).2 n < n0of T p.1 ∧
          ((rowsAt T p.1).getD ((sol p.1 p.2).2 n) dRow).label
            = ((rowsAt T p.2).getD n dRow).label) →
      (get_track sol T).map (fun r => r.label) = T.map (fun r => r.label))
    ∧ (∀ (T : List Row) (f : Nat → Nat),
      (∀ n, n < ns T → ns T ≤ f n) →
      ∀ i j, i < T.length → j < T.length →
        (((close_merge_split f T).getD i dRow).label
            = ((close_merge_split f T).getD j dRow).label
          ↔ (T.getD i dRow).label = (T.getD j dRow).label)) :=
  ⟨fun _ _ hc => get_track_id hc, fun _ _ hb => cms_partition hb⟩

/-- Witness for the amended C9 on the concrete table `T9w`. -/
theorem c9_rerun_pipeline_witness :
    (get_track sol9w T9w).map (fun r => r.label) = T9w.map (fun r => r.label)
    ∧ (((close_merge_split (fun _ => 1) T9w).getD 0 dRow).label
        = ((close_merge_split (fun _ => 1) T9w).getD 1 dRow).label
      ↔ (T9w.getD 0 dRow).label = (T9w.getD 1 dRow).label) :=
  ⟨c9_rerun_pipeline.1 T9w sol9w (by decide),
   c9_rerun_pipeline.2 T9w (fun _ => 1) (by decide) 0 1 (by decide) (by decide)⟩

/-- C10: `get_track` never changes the labels of the detections at the
earliest time point of a time-ordered table: the working column is seeded from
the existing labels, every linking step writes only rows of the later time of
its pair (all of which differ from the first time point), and the final index
promotion therefore returns each first-frame row to its original label. -/
theorem c10_first_frame_labels_preserved :
    ∀ (T : List Row) (sol : Int → Int → Bool × (Nat → Nat)) (i : Nat),
      List.Pairwise (fun a b => a.t ≤ b.t) T →
      i < T.length →
      (T.getD i dRow).t = (T.map (fun r => r.t)).headD 0 →
      ((get_track sol T).getD i dRow).label = (T.getD i dRow).label :=
  fun _ _ _ _ hi ht => get_track_first_frame hi ht

/-- Witness for C10 on the concrete table `T10w`. -/
theorem c10_first_frame_labels_preserved_witness :
    ((get_track sol10w T10w).getD 0 dRow).label = (T10w.getD 0 dRow).label :=
  c10_first_frame_labels_preserved T10w sol10w 0 (by decide) (by decide) (by decide)

end LapTrack
